import Mathlib

/-! # Lidar filters: a range clamp and a temporal median filter

A shallow embedding of `LidarFilter.h` / `LidarFilter.cpp` (namespace `LFCLASS`).

* A `float` is NaN, an infinity or a finite value.  A finite value is an exact
  rational number: the sum and the halving of finite values are exact, so there
  is neither rounding nor overflow, and there is one zero.  The comparisons are
  those of IEEE 754: `<`, `<=`, `>` and `>=` are all false when an operand is
  NaN.
* A scan (`vector<float>`) is a list of `float`.
* A method of a class is a function from the object (and the arguments) to a
  result and the object after the call.  A call that throws returns
  `Except.error` together with the object as it is when the exception leaves the
  method.
* A `std::multiset<float>` is the list of its elements in the order of
  iteration; an iterator into it is the rank of the node it designates.
  Inserting or erasing a node in front of that node moves the rank by one; the
  node itself stays.  `insert`, `lower_bound` and `upper_bound` use the
  comparison `<` of `std::less<float>` alone and find their position by going
  along the elements; this is the position any implementation finds while no
  key is NaN.  With a key NaN, for which `<` is no strict weak ordering, the
  positions are those this search finds.
* Operations whose behaviour C++ leaves undefined (an index out of range, a
  singular or invalidated iterator that is dereferenced, stepping back from
  `begin()`) return `none`; a call that runs into one ends with
  `Error.undefined_behaviour`.
* An `int` is an `Int`: the sizes and indices the code computes stay between 0
  and `m_D`, so no arithmetic overflows.  `%` on `int` is the truncating
  `Int.tmod`.
-/

namespace LFCLASS

/-- The values of the type `float`. -/
inductive float where
  /-- Not a number. -/
  | nan
  /-- Negative infinity. -/
  | inf_neg
  /-- A finite value. -/
  | finite (q : ℚ)
  /-- Positive infinity. -/
  | inf_pos
  deriving DecidableEq, Repr

namespace float

/-- The comparison `x < y`. -/
def lt : float → float → Bool
  | finite a, finite b => decide (a < b)
  | inf_neg, finite _ => true
  | inf_neg, inf_pos => true
  | finite _, inf_pos => true
  | _, _ => false

/-- The comparison `x <= y`. -/
def le : float → float → Bool
  | finite a, finite b => decide (a ≤ b)
  | inf_neg, inf_neg => true
  | inf_neg, finite _ => true
  | inf_neg, inf_pos => true
  | finite _, inf_pos => true
  | inf_pos, inf_pos => true
  | _, _ => false

instance : LT float := ⟨fun x y => lt x y = true⟩

instance : LE float := ⟨fun x y => le x y = true⟩

instance (x y : float) : Decidable (x < y) := inferInstanceAs (Decidable (lt x y = true))

instance (x y : float) : Decidable (x ≤ y) := inferInstanceAs (Decidable (le x y = true))

/-- A literal such as `2` or `2.0`. -/
instance (n : Nat) : OfNat float n := ⟨finite (OfNat.ofNat n)⟩

/-- The quotient `x / 2.0`. -/
def half : float → float
  | finite q => finite (q / 2)
  | x => x

/-- The sum `x + y`. -/
def add : float → float → float
  | finite a, finite b => finite (a + b)
  | nan, _ => nan
  | _, nan => nan
  | inf_pos, inf_neg => nan
  | inf_neg, inf_pos => nan
  | inf_pos, _ => inf_pos
  | _, inf_pos => inf_pos
  | inf_neg, _ => inf_neg
  | _, inf_neg => inf_neg

instance : Add float := ⟨add⟩

end float

/-- One scan of the sensor, `vector<float>`. -/
abbrev Scan := List float

/-- What a call can end with other than a result. -/
inductive Error where
  /-- The exception `runtime_error(what)`. -/
  | runtime_error (what : String)
  /-- The call ran into behaviour that C++ leaves undefined. -/
  | undefined_behaviour
  deriving DecidableEq, Repr

/-! ## RangeFilter -/

/-- The class `RangeFilter`: its two private members. -/
structure RangeFilter where
  range_min : float
  range_max : float
  deriving DecidableEq, Repr

namespace RangeFilter

/-- The constructor `RangeFilter::RangeFilter(minRange, maxRange)`. -/
def ctor (minRange maxRange : float) : Except Error RangeFilter :=
  if minRange > maxRange then
    .error (.runtime_error "Invalid range settings in RangeFilter: range_min > range_max!")
  else
    .ok { range_min := minRange, range_max := maxRange }

/-- The method `RangeFilter::setRange(minRange, maxRange)`. -/
def setRange (self : RangeFilter) (minRange maxRange : float) :
    Except Error Unit × RangeFilter :=
  if minRange > maxRange then
    (.error (.runtime_error "Invalid range settings in RangeFilter: range_min > range_max!"), self)
  else
    (.ok (), { self with range_min := minRange, range_max := maxRange })

/-- The method `RangeFilter::getRange(minRange, maxRange)`: the two output
parameters as a pair, and the object after the call. -/
def getRange (self : RangeFilter) : (float × float) × RangeFilter :=
  ((self.range_min, self.range_max), self)

/-- The body of the loop of `RangeFilter::update`: two tests in sequence on `val`. -/
def crop (self : RangeFilter) (val : float) : float :=
  let val1 := if val < self.range_min then self.range_min else val
  if val1 > self.range_max then self.range_max else val1

/-- The method `RangeFilter::update(oneScan)`. -/
def update (self : RangeFilter) (oneScan : Scan) : Scan × RangeFilter :=
  (oneScan.map self.crop, self)

end RangeFilter

/-! ## std::multiset and its iterators -/

/-- A `multiset<float>`: its elements in the order of iteration. -/
abbrev multiset := List float

namespace multiset

/-- The rank of `upper_bound(v)`: of the first element `x` with `v < x`. -/
def upper_bound : multiset → float → Nat
  | [], _ => 0
  | x :: xs, v => if v < x then 0 else upper_bound xs v + 1

/-- The rank of `lower_bound(v)`: of the first element `x` without `x < v`. -/
def lower_bound : multiset → float → Nat
  | [], _ => 0
  | x :: xs, v => if x < v then lower_bound xs v + 1 else 0

/-- The elements after `insert(v)`: the new node goes to the upper bound of `v`. -/
def insert (s : multiset) (v : float) : multiset :=
  s.take (upper_bound s v) ++ v :: s.drop (upper_bound s v)

/-- The rank, after a node was inserted at rank `p`, of the node of rank `it`. -/
def after_insert (it p : Nat) : Nat :=
  if p ≤ it then it + 1 else it

/-- The elements after `erase(pos)` for the iterator `pos` of rank `q`;
erasing `end()` is undefined. -/
def erase (s : multiset) (q : Nat) : Option multiset :=
  if q < s.length then some (s.eraseIdx q) else none

/-- The rank, after the node of rank `q` was erased, of the node of rank `it`;
an iterator to the erased node is invalidated. -/
def after_erase (it q : Nat) : Option Nat :=
  if q < it then some (it - 1) else if q = it then none else some it

/-- Dereferencing `*it`; `it` has to designate an element. -/
def deref (s : multiset) (it : Nat) : Option float :=
  s[it]?

/-- The iterator `prev(it, n)`; stepping back from `begin()` is undefined. -/
def prev (it : Nat) (n : Int) : Option Nat :=
  if 0 ≤ (it : Int) - n then some ((it : Int) - n).toNat else none

end multiset

/-! ## TempMedianFilter -/

/-- The class `TempMedianFilter`: its private members.  An iterator of
`m_multiSetMedianIter` is `none` while it is singular. -/
structure TempMedianFilter where
  m_N : Int
  m_D : Int
  m_preScans : List Scan
  m_oldestIndex : Int
  m_lastUpdatedScan : Scan
  m_multiSetVal : List multiset
  m_multiSetMedianIter : List (Option Nat)
  deriving DecidableEq, Repr

/-- The element `v[i]` of a vector for an `int` index. -/
def vectorAt {α : Type} (v : List α) (i : Int) : Option α :=
  if 0 ≤ i then v[i.toNat]? else none

namespace TempMedianFilter

/-- The constructor `TempMedianFilter::TempMedianFilter(n, d)`. -/
def ctor (n d : Int) : Except Error TempMedianFilter :=
  if n ≤ 0 ∨ d ≤ 0 then
    .error (.runtime_error "Invalid number settings in TempMedianFilter: N <= 0 or D <= 0!")
  else
    .ok { m_N := n
          m_D := d
          m_preScans := []
          m_oldestIndex := 0
          m_lastUpdatedScan := List.replicate n.toNat 0
          m_multiSetVal := List.replicate n.toNat []
          m_multiSetMedianIter := List.replicate n.toNat none }

/-- The method `TempMedianFilter::updateOne(idx, newVal)`: the median returned
and the object after the call. -/
def updateOne (self : TempMedianFilter) (idx : Nat) (newVal : float) :
    Option (float × TempMedianFilter) := do
  -- multiset<float>& msetVal = m_multiSetVal[idx];
  let some msetVal := self.m_multiSetVal[idx]? | none
  if msetVal.isEmpty then
    -- the first set of scan data, store it directly
    let msetVal := multiset.insert msetVal newVal
    -- m_multiSetMedianIter[idx] = msetVal.begin();
    if idx < self.m_multiSetMedianIter.length then
      some (newVal, { self with
        m_multiSetVal := self.m_multiSetVal.set idx msetVal
        m_multiSetMedianIter := self.m_multiSetMedianIter.set idx (some 0) })
    else none
  else
    let k : Int := msetVal.length
    -- auto& mid = m_multiSetMedianIter[idx];
    let some (some mid) := self.m_multiSetMedianIter[idx]? | none
    if k < self.m_D then
      -- push new value into array without replacement
      let mid := multiset.after_insert mid (multiset.upper_bound msetVal newVal)
      let msetVal := multiset.insert msetVal newVal
      -- if ((newVal >= *mid) && (k % 2 == 1)) mid++;
      let some v := multiset.deref msetVal mid | none
      let mid := if newVal ≥ v ∧ k.tmod 2 = 1 then mid + 1 else mid
      -- if ((newVal < *mid) && (k % 2 == 0)) mid--;
      let some v := multiset.deref msetVal mid | none
      let some mid := (if newVal < v ∧ k.tmod 2 = 0 then multiset.prev mid 1 else some mid)
        | none
      -- return (*mid) / 2.0 + (*prev(mid, 1 - (k + 1) % 2)) / 2.0;
      let some v := multiset.deref msetVal mid | none
      let some it := multiset.prev mid (1 - (k + 1).tmod 2) | none
      let some w := multiset.deref msetVal it | none
      some (v.half + w.half, { self with
        m_multiSetVal := self.m_multiSetVal.set idx msetVal
        m_multiSetMedianIter := self.m_multiSetMedianIter.set idx (some mid) })
    else
      -- replace the oldest value with newVal
      let mid := multiset.after_insert mid (multiset.upper_bound msetVal newVal)
      let msetVal := multiset.insert msetVal newVal
      -- if (newVal < *mid) mid--;
      let some v := multiset.deref msetVal mid | none
      let some mid := (if newVal < v then multiset.prev mid 1 else some mid) | none
      -- if (m_preScans[m_oldestIndex][idx] <= *mid) mid++;
      let some oldScan := vectorAt self.m_preScans self.m_oldestIndex | none
      let some oldest := oldScan[idx]? | none
      let some v := multiset.deref msetVal mid | none
      let mid := if oldest ≤ v then mid + 1 else mid
      -- remove the oldest value
      let q := multiset.lower_bound msetVal oldest
      let some msetVal := multiset.erase msetVal q | none
      let some mid := multiset.after_erase mid q | none
      -- return (*mid) / 2.0 + (*prev(mid, 1 - k % 2)) / 2.0;
      let some v := multiset.deref msetVal mid | none
      let some it := multiset.prev mid (1 - k.tmod 2) | none
      let some w := multiset.deref msetVal it | none
      some (v.half + w.half, { self with
        m_multiSetVal := self.m_multiSetVal.set idx msetVal
        m_multiSetMedianIter := self.m_multiSetMedianIter.set idx (some mid) })

/-- The loop of `TempMedianFilter::updateScan` from index `i` on, `rest` being
the elements of `oneScan` from `i` on. -/
def updateScanFrom (self : TempMedianFilter) : Nat → List float → Option TempMedianFilter
  | _, [] => some self
  | i, newVal :: rest =>
    match updateOne self i newVal with
    | none => none
    | some (med, self1) =>
      if i < self1.m_lastUpdatedScan.length then
        updateScanFrom { self1 with m_lastUpdatedScan := self1.m_lastUpdatedScan.set i med }
          (i + 1) rest
      else none

/-- The method `TempMedianFilter::updateScan(oneScan)`. -/
def updateScan (self : TempMedianFilter) (oneScan : Scan) : Option TempMedianFilter :=
  updateScanFrom self 0 oneScan

/-- The method `TempMedianFilter::update(oneScan)`. -/
def update (self : TempMedianFilter) (oneScan : Scan) : Except Error Scan × TempMedianFilter :=
  if (oneScan.length : Int) ≠ self.m_N then
    (.error (.runtime_error
      "Invalid input in update function in TempMedianFilter: size doesn't match N!"), self)
  else
    match updateScan self oneScan with
    | none => (.error .undefined_behaviour, self)
    | some self1 =>
      if (self1.m_preScans.length : Int) < self1.m_D then
        -- first m_D scans will be push back
        let self2 := { self1 with m_preScans := self1.m_preScans ++ [oneScan] }
        (.ok self2.m_lastUpdatedScan, self2)
      else if 0 ≤ self1.m_oldestIndex ∧ self1.m_oldestIndex.toNat < self1.m_preScans.length then
        -- later will be used to replace the oldest scan
        let self2 := { self1 with
          m_preScans := self1.m_preScans.set self1.m_oldestIndex.toNat oneScan
          m_oldestIndex := (self1.m_oldestIndex + 1).tmod self1.m_D }
        (.ok self2.m_lastUpdatedScan, self2)
      else (.error .undefined_behaviour, self1)

/-- Feeding a stream of scans, one `update` per scan: what each call returned,
in order, and the object after the last call. -/
def feed (self : TempMedianFilter) : List Scan → List (Except Error Scan) × TempMedianFilter
  | [] => ([], self)
  | oneScan :: rest =>
    let r := update self oneScan
    let rs := feed r.2 rest
    (r.1 :: rs.1, rs.2)

end TempMedianFilter

/-! ## The reference median -/

/-- The median by sorting of exact numbers: the middle value of the sorted
values for an odd count, the mean of the two middle values for an even count. -/
def sortedMedian (vals : List ℚ) : Option ℚ :=
  let sorted := vals.insertionSort (· ≤ ·)
  let c := sorted.length
  if c % 2 = 1 then sorted[c / 2]?
  else do
    let a ← sorted[c / 2 - 1]?
    let b ← sorted[c / 2]?
    some ((a + b) / 2)

/-- A scan of finite samples, given as exact numbers. -/
def exactScan (oneScan : List ℚ) : Scan :=
  oneScan.map float.finite

/-- A stream of scans of finite samples. -/
def exactScans (scans : List (List ℚ)) : List Scan :=
  scans.map exactScan

/-- The raw values of column `i` in a list of scans. -/
def column {α : Type} (i : Nat) (scans : List (List α)) : List α :=
  scans.filterMap (fun oneScan => oneScan[i]?)

/-- The last `c` elements of a list. -/
def lastN {α : Type} (c : Nat) (l : List α) : List α :=
  l.drop (l.length - c)

/-- The number of calls that returned a result, among the outcomes of the calls. -/
def successes (rs : List (Except Error Scan)) : Nat :=
  (rs.filter (fun r => match r with
    | .ok _ => true
    | .error _ => false)).length

/-! ## Invariants of the temporal median filter -/

namespace TempMedianFilter

/-- The value `(*mid) / 2.0 + (*prev(mid, e)) / 2.0` for the iterator `mid` at
the middle rank `size / 2` of the window `l` and `e = 1 - size % 2`: the mean
of the middle element with itself for an odd size, with the element in front of
it for an even size. -/
def middle (l : multiset) : Option float :=
  match l[l.length / 2]?, l[l.length / 2 - (1 - l.length % 2)]? with
  | some a, some b => some (a.half + b.half)
  | _, _ => none

/-- The elements of a full column window after one step: the new value is in,
one node equal to the oldest value is out. -/
def replaced (l : multiset) (v old : float) : multiset :=
  (multiset.insert l v).eraseIdx (multiset.lower_bound (multiset.insert l v) old)

/-- Column `i` of the filter is consistent with the scans `w`: its multiset
holds the column-`i` samples of `w`, in ascending order, and its median iterator
is at the middle rank. -/
def ColumnInv (s : TempMedianFilter) (w : List Scan) (i : Nat) : Prop :=
  ∃ l, s.m_multiSetVal[i]? = some l ∧ l.Sorted (· ≤ ·) ∧ l.Perm (column i w) ∧
    (l ≠ [] → s.m_multiSetMedianIter[i]? = some (some (l.length / 2)))

/-- What `updateScan` relies on when the scan `f` arrives: `w` are the scans the
history buffer holds, oldest first, and `w'` those it holds after the call; no
sample is NaN. -/
structure ScanCtx (N D : Nat) (w w' : List Scan) (f : Scan) (s : TempMedianFilter) : Prop where
  hD : s.m_D = D
  lenVal : s.m_multiSetVal.length = N
  lenIter : s.m_multiSetMedianIter.length = N
  lenLast : s.m_lastUpdatedScan.length = N
  hw : ∀ g ∈ w, g.length = N
  hwn : ∀ g ∈ w, float.nan ∉ g
  hf : f.length = N
  hfn : float.nan ∉ f
  grow : w.length < D → w' = w ++ [f]
  full : ¬ w.length < D → ∃ oldScan w0, w = oldScan :: w0 ∧
    vectorAt s.m_preScans s.m_oldestIndex = some oldScan ∧ w' = w0 ++ [f]

/-- The scans the history buffer holds, oldest first. -/
def window (s : TempMedianFilter) : List Scan :=
  s.m_preScans.drop s.m_oldestIndex.toNat ++ s.m_preScans.take s.m_oldestIndex.toNat

/-- The history buffer of a `TempMedianFilter(N, D)` whose successful updates
were given the scans `hist`. -/
structure RingInv (N D : Nat) (hist : List Scan) (s : TempMedianFilter) : Prop where
  posD : 0 < D
  hN : s.m_N = N
  hD : s.m_D = D
  lenPre : s.m_preScans.length = min hist.length D
  idx : s.m_oldestIndex = (((hist.length - D) % D : Nat) : Int)
  win : window s = lastN D hist

/-- The state of a `TempMedianFilter(N, D)` that was fed the scans `hist`, each
of length `N` and without NaN. -/
structure Inv (N D : Nat) (hist : List Scan) (s : TempMedianFilter) : Prop where
  ring : RingInv N D hist s
  posN : 0 < N
  lenVal : s.m_multiSetVal.length = N
  lenIter : s.m_multiSetMedianIter.length = N
  lenLast : s.m_lastUpdatedScan.length = N
  hhist : ∀ g ∈ hist, g.length = N
  hnan : ∀ g ∈ hist, float.nan ∉ g
  cols : ∀ i, i < N → ColumnInv s (lastN D hist) i

end TempMedianFilter

/-! ## Calls on a RangeFilter -/

namespace RangeFilter

/-- A call of a method on a `RangeFilter` object. -/
inductive Call where
  | setRange (minRange maxRange : float)
  | getRange
  | update (oneScan : Scan)

/-- The object after one call, whether the call returned or threw. -/
def afterCall (self : RangeFilter) : Call → RangeFilter
  | .setRange minRange maxRange => (self.setRange minRange maxRange).2
  | .getRange => self.getRange.2
  | .update oneScan => (self.update oneScan).2

/-- The object after a sequence of calls. -/
def afterCalls (self : RangeFilter) : List Call → RangeFilter
  | [] => self
  | c :: cs => afterCalls (afterCall self c) cs

/-- The bounds handed to `setRange` in a call, none for the other calls. -/
def Call.bounds : Call → List float
  | .setRange minRange maxRange => [minRange, maxRange]
  | .getRange => []
  | .update _ => []

end RangeFilter

/-! ## The removal step of updateOne -/

namespace TempMedianFilter

/-- The steps of `updateOne(idx, newVal)` up to the removal of the oldest value
(the branch for a full window): the rank of the node that
`msetVal.erase(msetVal.lower_bound(...))` removes, and the rank the median
iterator has at that moment.  It is `none` when `updateOne` does not reach the
removal. -/
def removalRanks (self : TempMedianFilter) (idx : Nat) (newVal : float) :
    Option (Nat × Nat) := do
  let some msetVal := self.m_multiSetVal[idx]? | none
  if msetVal.isEmpty then none
  else
    let k : Int := msetVal.length
    let some (some mid) := self.m_multiSetMedianIter[idx]? | none
    if k < self.m_D then none
    else
      -- replace the oldest value with newVal
      let mid := multiset.after_insert mid (multiset.upper_bound msetVal newVal)
      let msetVal := multiset.insert msetVal newVal
      -- if (newVal < *mid) mid--;
      let some v := multiset.deref msetVal mid | none
      let some mid := (if newVal < v then multiset.prev mid 1 else some mid) | none
      -- if (m_preScans[m_oldestIndex][idx] <= *mid) mid++;
      let some oldScan := vectorAt self.m_preScans self.m_oldestIndex | none
      let some oldest := oldScan[idx]? | none
      let some v := multiset.deref msetVal mid | none
      let mid := if oldest ≤ v then mid + 1 else mid
      -- msetVal.erase(msetVal.lower_bound(m_preScans[m_oldestIndex][idx]));
      some (multiset.lower_bound msetVal oldest, mid)

end TempMedianFilter

open multiset

/-! # Lemmas -/

/-! ## The comparisons and the arithmetic of float -/

namespace float

theorem lt_def (x y : float) : x < y ↔ lt x y = true := Iff.rfl

theorem le_def (x y : float) : x ≤ y ↔ le x y = true := Iff.rfl

@[simp] theorem finite_lt_finite (a b : ℚ) : finite a < finite b ↔ a < b := by
  simp [lt_def, lt]

@[simp] theorem finite_le_finite (a b : ℚ) : finite a ≤ finite b ↔ a ≤ b := by
  simp [le_def, le]

theorem not_nan_lt (x : float) : ¬ nan < x := by
  cases x <;> simp [lt_def, lt]

theorem not_lt_nan (x : float) : ¬ x < nan := by
  cases x <;> simp [lt_def, lt]

theorem not_nan_le (x : float) : ¬ nan ≤ x := by
  cases x <;> simp [le_def, le]

theorem not_le_nan (x : float) : ¬ x ≤ nan := by
  cases x <;> simp [le_def, le]

theorem ne_nan_of_le_left {x y : float} (h : x ≤ y) : x ≠ nan :=
  fun e => not_nan_le y (e ▸ h)

theorem ne_nan_of_le_right {x y : float} (h : x ≤ y) : y ≠ nan :=
  fun e => not_le_nan x (e ▸ h)

theorem le_refl_of_ne_nan {x : float} (hx : x ≠ nan) : x ≤ x := by
  cases x <;> simp [le_def, le] at hx ⊢

theorem le_trans {x y z : float} (h1 : x ≤ y) (h2 : y ≤ z) : x ≤ z := by
  cases x <;> cases y <;> cases z <;> simp [le_def, le] at h1 h2 ⊢
  linarith

theorem le_of_lt {x y : float} (h : x < y) : x ≤ y := by
  cases x <;> cases y <;> simp [le_def, le, lt_def, lt] at h ⊢
  linarith

theorem lt_of_lt_of_le {x y z : float} (h1 : x < y) (h2 : y ≤ z) : x < z := by
  cases x <;> cases y <;> cases z <;> simp [le_def, le, lt_def, lt] at h1 h2 ⊢
  linarith

theorem lt_irrefl (x : float) : ¬ x < x := by
  cases x <;> simp [lt_def, lt]

theorem le_antisymm {x y : float} (h1 : x ≤ y) (h2 : y ≤ x) : x = y := by
  cases x <;> cases y <;> simp [le_def, le] at h1 h2 ⊢
  linarith

theorem not_lt_of_le {x y : float} (h : x ≤ y) : ¬ y < x := by
  cases x <;> cases y <;> simp [le_def, le, lt_def, lt] at h ⊢
  linarith

theorem not_le_of_lt {x y : float} (h : x < y) : ¬ y ≤ x := fun h2 => not_lt_of_le h2 h

/-- Without NaN the comparisons are those of a total order. -/
theorem le_of_not_lt {x y : float} (hx : x ≠ nan) (hy : y ≠ nan) (h : ¬ x < y) : y ≤ x := by
  cases x <;> cases y <;> simp [le_def, le, lt_def, lt] at hx hy h ⊢
  linarith

theorem finite_half_add_half (a b : ℚ) :
    (finite a).half + (finite b).half = finite (a / 2 + b / 2) := rfl

/-- The mean of a value with itself is the value. -/
theorem half_add_half_self {x : float} (hx : x ≠ nan) : x.half + x.half = x := by
  cases x with
  | nan => exact absurd rfl hx
  | inf_neg => rfl
  | inf_pos => rfl
  | finite q =>
    rw [finite_half_add_half]
    congr 1
    ring

end float

/-! ## Facts about the multiset operations -/

namespace multiset

theorem insert_nil (v : float) : insert [] v = [v] := by
  simp [insert, upper_bound]

theorem insert_cons (x : float) (xs : multiset) (v : float) :
    insert (x :: xs) v = if v < x then v :: x :: xs else x :: insert xs v := by
  by_cases h : v < x <;> simp [insert, upper_bound, h]

theorem length_insert (s : multiset) (v : float) : (insert s v).length = s.length + 1 := by
  induction s with
  | nil => simp [insert_nil]
  | cons x xs ih => by_cases h : v < x <;> simp [insert_cons, h, ih]

theorem perm_insert (s : multiset) (v : float) : (insert s v).Perm (v :: s) := by
  induction s with
  | nil => simp [insert_nil]
  | cons x xs ih =>
    by_cases h : v < x
    · simp [insert_cons, h]
    · simp only [insert_cons, h, if_false]
      exact (List.Perm.cons x ih).trans (List.Perm.swap v x xs)

/-- Without NaN, the multiset stays in ascending order when a value is
inserted. -/
theorem sorted_insert (s : multiset) (v : float) (hs : s.Sorted (· ≤ ·))
    (hv : v ≠ float.nan) (hn : float.nan ∉ s) : (insert s v).Sorted (· ≤ ·) := by
  induction s with
  | nil => simp [insert_nil]
  | cons x xs ih =>
    have hx := List.sorted_cons.mp hs
    have hxn : x ≠ float.nan := fun h => hn (h ▸ List.mem_cons_self _ _)
    by_cases h : v < x
    · simp only [insert_cons, h, if_true]
      refine List.sorted_cons.mpr ⟨?_, hs⟩
      intro b hb
      rcases List.mem_cons.mp hb with rfl | hb
      · exact float.le_of_lt h
      · exact float.le_trans (float.le_of_lt h) (hx.1 b hb)
    · simp only [insert_cons, h, if_false]
      refine List.sorted_cons.mpr
        ⟨?_, ih hx.2 (fun hm => hn (List.mem_cons_of_mem _ hm))⟩
      intro b hb
      rcases List.mem_cons.mp ((perm_insert xs v).mem_iff.mp hb) with rfl | hb
      · exact float.le_of_not_lt hv hxn h
      · exact hx.1 b hb

/-- In the multiset after `insert(v)`, the elements greater than `v` are those
behind the new node. -/
theorem lt_insert_iff (s : multiset) (v : float) (hs : s.Sorted (· ≤ ·))
    (hn : float.nan ∉ s) (j : Nat) (x : float)
    (hj : (insert s v)[j]? = some x) : v < x ↔ upper_bound s v < j := by
  induction s generalizing j with
  | nil =>
    cases j with
    | zero =>
      simp [insert_nil] at hj
      subst hj
      simp [upper_bound, float.lt_irrefl]
    | succ j => simp [insert_nil] at hj
  | cons a xs ih =>
    have ha := List.sorted_cons.mp hs
    have han : a ≠ float.nan := fun h => hn (h ▸ List.mem_cons_self _ _)
    by_cases h : v < a
    · simp only [insert_cons, h, if_true] at hj
      cases j with
      | zero =>
        simp at hj
        subst hj
        simp [upper_bound, h, float.lt_irrefl]
      | succ j =>
        simp at hj
        have hx : x ∈ a :: xs := List.getElem?_mem hj
        have hax : a ≤ x := by
          rcases List.mem_cons.mp hx with rfl | hx
          · exact float.le_refl_of_ne_nan han
          · exact ha.1 x hx
        simp [upper_bound, h]
        exact float.lt_of_lt_of_le h hax
    · simp only [insert_cons, h, if_false] at hj
      cases j with
      | zero =>
        simp at hj
        subst hj
        simp [upper_bound, h]
      | succ j =>
        simp at hj
        simpa [upper_bound, h] using ih ha.2 (fun hm => hn (List.mem_cons_of_mem _ hm)) j hj

/-- In a multiset without NaN, the elements not less than `v` are those from
`lower_bound(v)` on. -/
theorem le_iff_lower_bound (s : multiset) (v : float) (hs : s.Sorted (· ≤ ·))
    (hv : v ≠ float.nan) (hn : float.nan ∉ s) (j : Nat) (x : float)
    (hj : s[j]? = some x) : v ≤ x ↔ lower_bound s v ≤ j := by
  induction s generalizing j with
  | nil => simp at hj
  | cons a xs ih =>
    have ha := List.sorted_cons.mp hs
    have han : a ≠ float.nan := fun h => hn (h ▸ List.mem_cons_self _ _)
    by_cases h : a < v
    · cases j with
      | zero =>
        simp at hj
        subst hj
        simp [lower_bound, h, float.not_le_of_lt h]
      | succ j =>
        simp at hj
        simpa [lower_bound, h] using ih ha.2 (fun hm => hn (List.mem_cons_of_mem _ hm)) j hj
    · have hx : x ∈ a :: xs := List.getElem?_mem hj
      have hax : a ≤ x := by
        rcases List.mem_cons.mp hx with rfl | hx
        · exact float.le_refl_of_ne_nan han
        · exact ha.1 x hx
      simp [lower_bound, h]
      exact float.le_trans (float.le_of_not_lt han hv h) hax

/-- The lookup `lower_bound(v)` finds an element equal to `v` when there is one. -/
theorem getElem?_lower_bound (s : multiset) (v : float) (hs : s.Sorted (· ≤ ·))
    (hn : float.nan ∉ s) (hv : v ∈ s) : s[lower_bound s v]? = some v := by
  induction s with
  | nil => simp at hv
  | cons a xs ih =>
    have ha := List.sorted_cons.mp hs
    have han : a ≠ float.nan := fun h => hn (h ▸ List.mem_cons_self _ _)
    have hvn : v ≠ float.nan := fun h => hn (h ▸ hv)
    by_cases h : a < v
    · rcases List.mem_cons.mp hv with rfl | hv
      · exact absurd h (float.lt_irrefl _)
      · simpa [lower_bound, h] using ih ha.2 (fun hm => hn (List.mem_cons_of_mem _ hm)) hv
    · have hav : a ≤ v := by
        rcases List.mem_cons.mp hv with rfl | hv
        · exact float.le_refl_of_ne_nan han
        · exact ha.1 v hv
      obtain rfl : a = v := float.le_antisymm hav (float.le_of_not_lt han hvn h)
      simp [lower_bound, h]

theorem perm_cons_eraseIdx {α : Type} (l : List α) (q : Nat) (x : α) (hq : l[q]? = some x) :
    l.Perm (x :: l.eraseIdx q) := by
  induction l generalizing q with
  | nil => simp at hq
  | cons a xs ih =>
    cases q with
    | zero => simp at hq; subst hq; simp
    | succ q =>
      simp at hq
      simp only [List.eraseIdx_cons_succ]
      exact (List.Perm.cons a (ih q hq)).trans (List.Perm.swap x a _)

theorem not_mem_insert (s : multiset) (v : float) (hv : v ≠ float.nan) (hn : float.nan ∉ s) :
    float.nan ∉ insert s v := by
  intro h
  rcases List.mem_cons.mp ((perm_insert s v).mem_iff.mp h) with h | h
  · exact hv h.symm
  · exact hn h

end multiset

theorem tmod_two (a : Int) (h : 0 ≤ a) : a.tmod 2 = a % 2 :=
  Int.tmod_eq_emod h (by omega)

theorem prev_eq (it : Nat) (n : Int) (r : Nat) (h : (it : Int) - n = r) :
    multiset.prev it n = some r := by
  unfold multiset.prev
  rw [if_pos (by omega)]
  exact congrArg some (by omega)

theorem sortedMedian_perm (l vals : List ℚ) (hs : l.Sorted (· ≤ ·)) (hp : l.Perm vals) :
    sortedMedian vals = sortedMedian l := by
  have h1 : vals.insertionSort (· ≤ ·) = l :=
    List.eq_of_perm_of_sorted ((List.perm_insertionSort _ vals).trans hp.symm)
      (List.sorted_insertionSort _ vals) hs
  simp only [sortedMedian, h1, hs.insertionSort_eq]

/-- Two lists of floats in ascending order with the same elements are equal. -/
theorem eq_of_perm_of_sorted_float (l1 l2 : List float) (hp : l1.Perm l2)
    (h1 : l1.Sorted (· ≤ ·)) (h2 : l2.Sorted (· ≤ ·)) : l1 = l2 := by
  haveI : IsAntisymm float (· ≤ ·) := ⟨fun _ _ => float.le_antisymm⟩
  exact List.eq_of_perm_of_sorted hp h1 h2

namespace TempMedianFilter

theorem middle_singleton (v : float) (hv : v ≠ float.nan) : middle [v] = some v := by
  simp [middle, float.half_add_half_self hv]

theorem middle_map_finite (ql : List ℚ) (hq : ql.Sorted (· ≤ ·)) :
    middle (ql.map float.finite) = (sortedMedian ql).map float.finite := by
  simp only [middle, sortedMedian, hq.insertionSort_eq, List.length_map, List.getElem?_map]
  rcases Nat.mod_two_eq_zero_or_one ql.length with hpar | hpar
  · rw [hpar]
    simp only [Nat.sub_zero, zero_ne_one, if_false]
    cases h1 : ql[ql.length / 2]? <;> cases h2 : ql[ql.length / 2 - 1]? <;>
      simp [float.finite_half_add_half]
    ring
  · rw [hpar]
    simp only [Nat.sub_self, Nat.sub_zero, if_true]
    cases h1 : ql[ql.length / 2]? <;> simp [float.finite_half_add_half]

/-- For finite samples the value read at the middle of the window in ascending
order is the median by sorting. -/
theorem middle_exact (l : multiset) (vals : List ℚ) (hs : l.Sorted (· ≤ ·))
    (hp : l.Perm (vals.map float.finite)) :
    middle l = (sortedMedian vals).map float.finite := by
  have hq := List.sorted_insertionSort (· ≤ ·) vals
  have hsorted : ((vals.insertionSort (· ≤ ·)).map float.finite).Sorted (· ≤ ·) := by
    simp only [List.Sorted, List.pairwise_map, float.finite_le_finite]
    exact hq
  have hl : l = (vals.insertionSort (· ≤ ·)).map float.finite :=
    eq_of_perm_of_sorted_float _ _
      (hp.trans ((List.perm_insertionSort _ vals).map _).symm) hs hsorted
  rw [hl, middle_map_finite _ hq,
    sortedMedian_perm _ vals hq (List.perm_insertionSort _ vals)]

end TempMedianFilter

/-- The value `updateOne` computes from the median iterator at the middle rank
of a non-empty multiset, `(*mid) / 2.0 + (*prev(mid, e)) / 2.0`. -/
theorem median_of_mid (l : multiset) (hne : l ≠ []) (e : Int)
    (he : e = 1 - (l.length : Int) % 2) :
    ∃ med a j b, TempMedianFilter.middle l = some med ∧ l[l.length / 2]? = some a ∧
      prev (l.length / 2) e = some j ∧ l[j]? = some b ∧ a.half + b.half = med := by
  have hlen : 0 < l.length := List.length_pos.mpr hne
  have hm : l.length / 2 < l.length := by omega
  rcases Nat.mod_two_eq_zero_or_one l.length with hpar | hpar
  · have hm1 : l.length / 2 - 1 < l.length := by omega
    refine ⟨l[l.length / 2].half + l[l.length / 2 - 1].half, l[l.length / 2],
      l.length / 2 - 1, l[l.length / 2 - 1], ?_, List.getElem?_eq_getElem hm,
      prev_eq _ _ _ (by omega), List.getElem?_eq_getElem hm1, rfl⟩
    simp [TempMedianFilter.middle, hpar, List.getElem?_eq_getElem, hm, hm1]
  · refine ⟨l[l.length / 2].half + l[l.length / 2].half, l[l.length / 2], l.length / 2,
      l[l.length / 2], ?_, List.getElem?_eq_getElem hm, prev_eq _ _ _ (by omega),
      List.getElem?_eq_getElem hm, rfl⟩
    simp [TempMedianFilter.middle, hpar, List.getElem?_eq_getElem, hm]

namespace TempMedianFilter

/-- The per-column step while the window grows, without NaN: the new value is
inserted, the median iterator ends at the middle rank and the value returned is
read there. -/
theorem updateOne_grow (s : TempMedianFilter) (idx : Nat) (v : float) (l : multiset)
    (hl : s.m_multiSetVal[idx]? = some l) (hs : l.Sorted (· ≤ ·))
    (hn : float.nan ∉ l) (hvn : v ≠ float.nan)
    (hidx : idx < s.m_multiSetMedianIter.length)
    (hmid : l ≠ [] → s.m_multiSetMedianIter[idx]? = some (some (l.length / 2)))
    (hk : (l.length : Int) < s.m_D) :
    ∃ med, middle (insert l v) = some med ∧
      updateOne s idx v = some (med, { s with
        m_multiSetVal := s.m_multiSetVal.set idx (insert l v)
        m_multiSetMedianIter :=
          s.m_multiSetMedianIter.set idx (some ((insert l v).length / 2)) }) := by
  by_cases hne : l = []
  · subst hne
    refine ⟨v, ?_, ?_⟩
    · rw [insert_nil]; exact middle_singleton v hvn
    · simp only [updateOne, hl, Option.bind_eq_bind, Option.some_bind, List.isEmpty_nil, if_true,
        hidx, insert_nil, List.length_singleton]
  · have he : l.isEmpty = false := by cases l <;> simp at hne ⊢
    have hlen : 0 < l.length := List.length_pos.mpr hne
    have hn' := not_mem_insert l v hvn hn
    have hlen' := length_insert l v
    have hne' : insert l v ≠ [] := by
      intro h
      simp [h] at hlen'
    obtain ⟨med, a, j, b, hmed, ha, hj, hb, hab⟩ := median_of_mid (insert l v) hne'
      (1 - ((l.length : Int) + 1) % 2) (by rw [hlen']; push_cast; rfl)
    refine ⟨med, hmed, ?_⟩
    rw [hlen'] at ha hj ⊢
    simp only [updateOne, hl, hmid hne, he, hk, if_true, Bool.false_eq_true, if_false,
      tmod_two _ (Int.natCast_nonneg _), tmod_two (l.length + 1) (by omega)]
    -- the node the iterator designates, after the insertion
    have hd1 : ∃ x1, (insert l v)[after_insert (l.length / 2) (upper_bound l v)]? = some x1 := by
      refine ⟨_, List.getElem?_eq_getElem ?_⟩
      unfold after_insert
      split <;> omega
    obtain ⟨x1, hx1⟩ := hd1
    have hx1n : x1 ≠ float.nan := fun h => hn' (h ▸ List.getElem?_mem hx1)
    have hlt1 := lt_insert_iff l v hs hn _ x1 hx1
    rcases Nat.mod_two_eq_zero_or_one l.length with hpar | hpar
    · -- even size: the middle rank stays
      have hm : (l.length + 1) / 2 = l.length / 2 := by omega
      have hpi : (l.length : Int) % 2 = 0 := by omega
      by_cases hp : upper_bound l v ≤ l.length / 2
      · have hai : after_insert (l.length / 2) (upper_bound l v) = l.length / 2 + 1 := by
          simp [after_insert, hp]
        rw [hai] at hx1 hlt1
        have hc : v < x1 := hlt1.mpr (by omega)
        have hprev : prev (l.length / 2 + 1) 1 = some ((l.length + 1) / 2) :=
          prev_eq _ _ _ (by omega)
        simp only [deref, hai, hx1, hpi, hc, hprev, zero_ne_one, and_false, if_false, and_self,
          if_true, ha, hj, hb, hab]
      · have hai : after_insert (l.length / 2) (upper_bound l v) = (l.length + 1) / 2 := by
          simp [after_insert, hp, hm]
        rw [hai] at hx1 hlt1
        have hc : ¬ v < x1 := fun h => by have := hlt1.mp h; omega
        simp only [deref, hai, hx1, hpi, hc, zero_ne_one, and_false, if_false, false_and]
        obtain rfl : x1 = a := Option.some.inj (hx1.symm.trans ha)
        simp only [hj, hb, hab]
    · -- odd size: the middle rank moves up by one
      have hm : (l.length + 1) / 2 = l.length / 2 + 1 := by omega
      have hpi : (l.length : Int) % 2 = 1 := by omega
      by_cases hp : upper_bound l v ≤ l.length / 2
      · have hai : after_insert (l.length / 2) (upper_bound l v) = (l.length + 1) / 2 := by
          simp [after_insert, hp, hm]
        rw [hai] at hx1 hlt1
        have hc : ¬ v ≥ x1 := float.not_le_of_lt (hlt1.mpr (by omega))
        simp only [deref, hai, hx1, hpi, hc, one_ne_zero, and_false, if_false, false_and]
        obtain rfl : x1 = a := Option.some.inj (hx1.symm.trans ha)
        simp only [hj, hb, hab]
      · have hai : after_insert (l.length / 2) (upper_bound l v) = l.length / 2 := by
          simp [after_insert, hp]
        rw [hai] at hx1 hlt1
        have hc : v ≥ x1 :=
          float.le_of_not_lt hvn hx1n (fun h => by have := hlt1.mp h; omega)
        simp only [deref, hai, hx1, hpi, hc, and_self, if_true, ← hm, ha, one_ne_zero, and_false,
          if_false, hj, hb, hab]

theorem replaced_props (l : multiset) (v old : float) (hs : l.Sorted (· ≤ ·))
    (hn : float.nan ∉ l) (hvn : v ≠ float.nan) (hmem : old ∈ l) :
    (replaced l v old).Sorted (· ≤ ·) ∧ (old :: replaced l v old).Perm (v :: l) ∧
      (replaced l v old).length = l.length ∧
      (insert l v)[lower_bound (insert l v) old]? = some old := by
  have hs' := sorted_insert l v hs hvn hn
  have hmem' : old ∈ insert l v := (perm_insert l v).mem_iff.mpr (List.mem_cons_of_mem _ hmem)
  have hq := getElem?_lower_bound (insert l v) old hs' (not_mem_insert l v hvn hn) hmem'
  have hperm := perm_cons_eraseIdx (insert l v) _ old hq
  refine ⟨hs'.sublist (List.eraseIdx_sublist _ _), hperm.symm.trans (perm_insert l v), ?_, hq⟩
  have h1 := hperm.length_eq
  have h2 := length_insert l v
  simp only [List.length_cons] at h1
  unfold replaced
  omega

/-- The per-column step on a full window, without NaN: the new value is
inserted, one node equal to the oldest value is erased (never the one the median
iterator designates), the iterator ends at the middle rank and the value
returned is read there. -/
theorem updateOne_full (s : TempMedianFilter) (idx : Nat) (v : float) (l : multiset)
    (oldScan : Scan) (old : float)
    (hl : s.m_multiSetVal[idx]? = some l) (hs : l.Sorted (· ≤ ·))
    (hn : float.nan ∉ l) (hvn : v ≠ float.nan) (hne : l ≠ [])
    (hmid : s.m_multiSetMedianIter[idx]? = some (some (l.length / 2)))
    (hk : ¬ (l.length : Int) < s.m_D)
    (hscan : vectorAt s.m_preScans s.m_oldestIndex = some oldScan)
    (hold : oldScan[idx]? = some old) (hmem : old ∈ l) :
    ∃ med, middle (replaced l v old) = some med ∧
      updateOne s idx v = some (med, { s with
        m_multiSetVal := s.m_multiSetVal.set idx (replaced l v old)
        m_multiSetMedianIter :=
          s.m_multiSetMedianIter.set idx (some ((replaced l v old).length / 2)) }) := by
  have he : l.isEmpty = false := by cases l <;> simp at hne ⊢
  have hlen : 0 < l.length := List.length_pos.mpr hne
  have hs' := sorted_insert l v hs hvn hn
  have hn' := not_mem_insert l v hvn hn
  have holdn : old ≠ float.nan := fun h => hn (h ▸ hmem)
  have hlen' := length_insert l v
  obtain ⟨-, -, hlen'', hq⟩ := replaced_props l v old hs hn hvn hmem
  have hne'' : replaced l v old ≠ [] := by
    intro h
    simp [h] at hlen''
    omega
  obtain ⟨med, a, j, b, hmed, ha, hj, hb, hab⟩ := median_of_mid (replaced l v old) hne''
    (1 - (l.length : Int) % 2) (by rw [hlen''])
  refine ⟨med, hmed, ?_⟩
  rw [hlen''] at ha hj ⊢
  simp only [updateOne, hl, hmid, he, hk, Bool.false_eq_true, if_false,
    tmod_two _ (Int.natCast_nonneg _), hscan, hold]
  have hd1 : ∃ x1, (insert l v)[after_insert (l.length / 2) (upper_bound l v)]? = some x1 := by
    refine ⟨_, List.getElem?_eq_getElem ?_⟩
    unfold after_insert
    split <;> omega
  obtain ⟨x1, hx1⟩ := hd1
  have hlt1 := lt_insert_iff l v hs hn _ x1 hx1
  have hd2 : ∃ x2, (insert l v)[l.length / 2]? = some x2 :=
    ⟨_, List.getElem?_eq_getElem (by omega)⟩
  obtain ⟨x2, hx2⟩ := hd2
  have hle2 := le_iff_lower_bound (insert l v) old hs' holdn hn' _ x2 hx2
  have hqlt : lower_bound (insert l v) old < (insert l v).length := by
    by_contra h
    rw [List.getElem?_eq_none (not_lt.mp h)] at hq
    exact absurd hq (by simp)
  have herase : erase (insert l v) (lower_bound (insert l v) old) = some (replaced l v old) := by
    simp only [erase, hqlt, if_true, replaced]
  -- the node erased is not the one the iterator designates
  have hstep2 : after_erase (if old ≤ x2 then l.length / 2 + 1 else l.length / 2)
      (lower_bound (insert l v) old) = some (l.length / 2) := by
    by_cases hc : old ≤ x2
    · have := hle2.mp hc
      simp only [hc, if_true, after_erase]
      rw [if_pos (by omega)]
      rfl
    · have : ¬ lower_bound (insert l v) old ≤ l.length / 2 := fun h => hc (hle2.mpr h)
      simp only [hc, if_false, after_erase]
      rw [if_neg (by omega), if_neg (by omega)]
  -- after the test on the new value the iterator is at the middle rank again
  by_cases hp : upper_bound l v ≤ l.length / 2
  · have hai : after_insert (l.length / 2) (upper_bound l v) = l.length / 2 + 1 := by
      simp [after_insert, hp]
    rw [hai] at hlt1 hx1
    have hc : v < x1 := hlt1.mpr (by omega)
    have hprev : prev (l.length / 2 + 1) 1 = some (l.length / 2) := prev_eq _ _ _ (by omega)
    simp only [deref, hai, hx1, hc, if_true, hprev, hx2, herase, hstep2, ha, hj, hb, hab]
  · have hai : after_insert (l.length / 2) (upper_bound l v) = l.length / 2 := by
      simp [after_insert, hp]
    rw [hai] at hlt1 hx1
    have hx : x1 = x2 := Option.some.inj (hx1.symm.trans hx2)
    have hc : ¬ v < x2 := fun h => by have := hlt1.mp (hx ▸ h); omega
    simp only [deref, hai, hx2, hc, if_false, herase, hstep2, ha, hj, hb, hab]

end TempMedianFilter

theorem column_append {α : Type} (i : Nat) (w : List (List α)) (f : List α) (v : α)
    (hv : f[i]? = some v) : column i (w ++ [f]) = column i w ++ [v] := by
  simp [column, List.filterMap_append, hv]

theorem column_cons {α : Type} (i : Nat) (w : List (List α)) (f : List α) (v : α)
    (hv : f[i]? = some v) : column i (f :: w) = v :: column i w := by
  simp [column, List.filterMap_cons, hv]

theorem length_column {α : Type} (i N : Nat) (w : List (List α)) (hi : i < N)
    (hw : ∀ g ∈ w, g.length = N) : (column i w).length = w.length := by
  induction w with
  | nil => rfl
  | cons g w ih =>
    have hg : g.length = N := hw g (List.mem_cons_self _ _)
    have : g[i]? = some g[i] := List.getElem?_eq_getElem (by omega)
    rw [column_cons i w g _ this, List.length_cons, List.length_cons,
      ih (fun g hg => hw g (List.mem_cons_of_mem _ hg))]

/-- A column of scans without NaN has no NaN. -/
theorem not_mem_column (i : Nat) (w : List Scan) (hwn : ∀ g ∈ w, float.nan ∉ g) :
    float.nan ∉ column i w := by
  intro h
  simp only [column, List.mem_filterMap] at h
  obtain ⟨g, hg, hgi⟩ := h
  exact hwn g hg (List.getElem?_mem hgi)

namespace TempMedianFilter

/-- One column step, without NaN, keeps the column consistent and returns the
value at the middle of its window. -/
theorem updateOne_column (N D : Nat) (w w' : List Scan) (f : Scan) (s : TempMedianFilter)
    (ctx : ScanCtx N D w w' f s) (i : Nat) (hi : i < N) (v : float) (hv : f[i]? = some v)
    (hcol : ColumnInv s w i) :
    ∃ med l', updateOne s i v = some (med, { s with
        m_multiSetVal := s.m_multiSetVal.set i l'
        m_multiSetMedianIter := s.m_multiSetMedianIter.set i (some (l'.length / 2)) }) ∧
      l'.Sorted (· ≤ ·) ∧ l'.Perm (column i w') ∧ middle l' = some med := by
  obtain ⟨l, hl, hs, hperm, hmid⟩ := hcol
  have hlen : l.length = w.length := by
    rw [hperm.length_eq, length_column i N w hi ctx.hw]
  have hn : float.nan ∉ l := fun h => not_mem_column i w ctx.hwn (hperm.mem_iff.mp h)
  have hvn : v ≠ float.nan := fun h => ctx.hfn (h ▸ List.getElem?_mem hv)
  by_cases hk : w.length < D
  · -- the window grows
    have hk' : (l.length : Int) < s.m_D := by rw [ctx.hD, hlen]; exact_mod_cast hk
    obtain ⟨med, hmed, hupd⟩ :=
      updateOne_grow s i v l hl hs hn hvn (by rw [ctx.lenIter]; exact hi) hmid hk'
    have hp' : (insert l v).Perm (column i w') := by
      rw [ctx.grow hk, column_append i w f v hv]
      exact (perm_insert l v).trans
        ((List.Perm.cons v hperm).trans (List.perm_append_singleton v _).symm)
    exact ⟨med, insert l v, hupd, sorted_insert l v hs hvn hn, hp', hmed⟩
  · -- the window is full
    obtain ⟨oldScan, w0, hw, hscan, hw'⟩ := ctx.full hk
    have hilt : i < oldScan.length := by
      rw [ctx.hw oldScan (by rw [hw]; exact List.mem_cons_self _ _)]; exact hi
    obtain ⟨old, hold⟩ : ∃ old, oldScan[i]? = some old :=
      ⟨_, List.getElem?_eq_getElem hilt⟩
    have hcolw : column i w = old :: column i w0 := by rw [hw, column_cons i w0 oldScan old hold]
    rw [hcolw] at hperm
    have hmem : old ∈ l := hperm.mem_iff.mpr (List.mem_cons_self _ _)
    have hne : l ≠ [] := List.ne_nil_of_mem hmem
    have hk' : ¬ (l.length : Int) < s.m_D := by
      rw [ctx.hD, hlen]; exact_mod_cast hk
    obtain ⟨med, hmed, hupd⟩ := updateOne_full s i v l oldScan old hl hs hn hvn hne (hmid hne) hk'
      hscan hold hmem
    obtain ⟨hs'', hperm'', -, -⟩ := replaced_props l v old hs hn hvn hmem
    have hp' : (replaced l v old).Perm (column i w') := by
      rw [hw', column_append i w0 f v hv]
      have h1 : (old :: replaced l v old).Perm (old :: (v :: column i w0)) :=
        hperm''.trans ((List.Perm.cons v hperm).trans (List.Perm.swap old v _))
      exact (List.Perm.cons_inv h1).trans (List.perm_append_singleton v _).symm
    exact ⟨med, replaced l v old, hupd, hs'', hp', hmed⟩

theorem columnInv_congr {s s' : TempMedianFilter} {w : List Scan} {j : Nat}
    (h : ColumnInv s w j) (h1 : s'.m_multiSetVal[j]? = s.m_multiSetVal[j]?)
    (h2 : s'.m_multiSetMedianIter[j]? = s.m_multiSetMedianIter[j]?) : ColumnInv s' w j := by
  obtain ⟨l, hl, hs, hp, hm⟩ := h
  exact ⟨l, h1.trans hl, hs, hp, fun hne => h2.trans (hm hne)⟩

theorem scanCtx_congr {N D : Nat} {w w' : List Scan} {f : Scan} {s s' : TempMedianFilter}
    (ctx : ScanCtx N D w w' f s) (hD : s'.m_D = s.m_D) (hpre : s'.m_preScans = s.m_preScans)
    (ho : s'.m_oldestIndex = s.m_oldestIndex) (h1 : s'.m_multiSetVal.length = N)
    (h2 : s'.m_multiSetMedianIter.length = N) (h3 : s'.m_lastUpdatedScan.length = N) :
    ScanCtx N D w w' f s' :=
  { hD := hD.trans ctx.hD, lenVal := h1, lenIter := h2, lenLast := h3, hw := ctx.hw,
    hwn := ctx.hwn, hf := ctx.hf, hfn := ctx.hfn,
    grow := ctx.grow, full := by rw [hpre, ho]; exact ctx.full }

/-- The loop of `updateScan` from column `i` on: every column from `i` on is
stepped and the value at the middle of its window stored, the columns before
`i` and the history buffer are left as they are. -/
theorem updateScanFrom_spec (N D : Nat) (w w' : List Scan) (f : Scan) :
    ∀ (rest : List float) (i : Nat) (s : TempMedianFilter), ScanCtx N D w w' f s →
      f.drop i = rest → (∀ j, i ≤ j → j < N → ColumnInv s w j) →
      ∃ s', updateScanFrom s i rest = some s' ∧
        s'.m_N = s.m_N ∧ s'.m_D = s.m_D ∧ s'.m_preScans = s.m_preScans ∧
        s'.m_oldestIndex = s.m_oldestIndex ∧ s'.m_multiSetVal.length = N ∧
        s'.m_multiSetMedianIter.length = N ∧ s'.m_lastUpdatedScan.length = N ∧
        (∀ j, j < i → s'.m_multiSetVal[j]? = s.m_multiSetVal[j]? ∧
          s'.m_multiSetMedianIter[j]? = s.m_multiSetMedianIter[j]? ∧
          s'.m_lastUpdatedScan[j]? = s.m_lastUpdatedScan[j]?) ∧
        (∀ j, i ≤ j → j < N → ColumnInv s' w' j ∧
          ∃ l, l.Sorted (· ≤ ·) ∧ l.Perm (column j w') ∧
            s'.m_lastUpdatedScan[j]? = middle l) := by
  intro rest
  induction rest with
  | nil =>
    intro i s ctx hdrop _
    have hi : N ≤ i := by
      have := congrArg List.length hdrop
      simp only [List.length_drop, List.length_nil, ctx.hf] at this
      omega
    exact ⟨s, rfl, rfl, rfl, rfl, rfl, ctx.lenVal, ctx.lenIter, ctx.lenLast,
      fun j _ => ⟨rfl, rfl, rfl⟩, fun j h1 h2 => absurd h2 (by omega)⟩
  | cons v rest ih =>
    intro i s ctx hdrop hcols
    have hv : f[i]? = some v := by
      have := congrArg (fun l => l[0]?) hdrop
      simpa [List.getElem?_drop] using this
    have hi : i < N := by
      rw [← ctx.hf]
      by_contra h
      rw [List.getElem?_eq_none (not_lt.mp h)] at hv
      exact absurd hv (by simp)
    have hdrop' : f.drop (i + 1) = rest := by
      have := congrArg (fun l => l.drop 1) hdrop
      simpa [List.drop_drop, Nat.add_comm] using this
    obtain ⟨med, l', hupd, hs', hp', hmed⟩ :=
      updateOne_column N D w w' f s ctx i hi v hv (hcols i (le_refl _) hi)
    have hlast : i < s.m_lastUpdatedScan.length := by rw [ctx.lenLast]; exact hi
    obtain ⟨s', hrun, hN, hD, hpre, ho, h1, h2, h3, hbefore, hafter⟩ :=
      ih (i + 1)
        { s with
          m_multiSetVal := s.m_multiSetVal.set i l'
          m_multiSetMedianIter := s.m_multiSetMedianIter.set i (some (l'.length / 2))
          m_lastUpdatedScan := s.m_lastUpdatedScan.set i med }
        (scanCtx_congr ctx rfl rfl rfl (by simp [ctx.lenVal]) (by simp [ctx.lenIter])
          (by simp [ctx.lenLast]))
        hdrop'
        (fun j hj hjN => columnInv_congr (hcols j (by omega) hjN)
          (by simp [List.getElem?_set_ne (show i ≠ j by omega)])
          (by simp [List.getElem?_set_ne (show i ≠ j by omega)]))
    refine ⟨s', ?_, hN, hD, hpre, ho, h1, h2, h3, ?_, ?_⟩
    · simp only [updateScanFrom, hupd, hlast, if_true]
      exact hrun
    · intro j hj
      obtain ⟨e1, e2, e3⟩ := hbefore j (by omega)
      refine ⟨e1.trans ?_, e2.trans ?_, e3.trans ?_⟩ <;>
        simp [List.getElem?_set_ne (show i ≠ j by omega)]
    · intro j hj hjN
      rcases Nat.lt_or_ge i j with hlt | hge
      · exact hafter j (by omega) hjN
      · have hji : j = i := by omega
        subst hji
        obtain ⟨e1, e2, e3⟩ := hbefore j (by omega)
        refine ⟨⟨l', e1.trans ?_, hs', hp', fun _ => e2.trans ?_⟩, l', hs', hp', e3.trans ?_⟩
        · simp [List.getElem?_set_self, ctx.lenVal, hi]
        · simp [List.getElem?_set_self, ctx.lenIter, hi]
        · simp [List.getElem?_set_self, ctx.lenLast, hi, hmed]

end TempMedianFilter

theorem length_lastN {α : Type} (c : Nat) (l : List α) : (lastN c l).length = min l.length c := by
  simp only [lastN, List.length_drop]
  omega

theorem lastN_append_grow {α : Type} (c : Nat) (l : List α) (x : α) (h : l.length < c) :
    lastN c (l ++ [x]) = lastN c l ++ [x] := by
  simp only [lastN, List.length_append, List.length_singleton]
  rw [show l.length + 1 - c = 0 by omega, show l.length - c = 0 by omega]
  rfl

theorem lastN_append_full {α : Type} (c : Nat) (l : List α) (x : α) (hc : 0 < c)
    (h : ¬ l.length < c) :
    ∃ y w0, lastN c l = y :: w0 ∧ lastN c (l ++ [x]) = w0 ++ [x] := by
  have hlen := length_lastN c l
  cases hw : lastN c l with
  | nil => rw [hw] at hlen; simp at hlen; omega
  | cons y w0 =>
    refine ⟨y, w0, rfl, ?_⟩
    have h1 : lastN c (l ++ [x]) = (lastN c l).drop 1 ++ [x] := by
      simp only [lastN, List.length_append, List.length_singleton, List.drop_drop]
      rw [List.drop_append_of_le_length (by omega)]
      congr 2
      omega
    rw [h1, hw]
    rfl

theorem mem_lastN {α : Type} (c : Nat) (l : List α) (x : α) (h : x ∈ lastN c l) : x ∈ l :=
  List.mem_of_mem_drop h

theorem ring_set_aux {α : Type} (A B : List α) (x y : α) :
    ((A ++ y :: B).set A.length x).drop ((A.length + 1) % (A ++ y :: B).length) ++
      ((A ++ y :: B).set A.length x).take ((A.length + 1) % (A ++ y :: B).length) =
      B ++ A ++ [x] := by
  have hset : (A ++ y :: B).set A.length x = A ++ x :: B := by
    rw [List.set_append_right _ _ (le_refl _)]
    simp
  rw [hset]
  cases B with
  | nil =>
    have : (A.length + 1) % (A ++ [y]).length = 0 := by simp
    rw [this]
    simp
  | cons b B =>
    have : (A.length + 1) % (A ++ y :: b :: B).length = (A ++ [x]).length := by
      simp only [List.length_append, List.length_cons, List.length_nil]
      exact Nat.mod_eq_of_lt (by omega)
    rw [this]
    have e : A ++ x :: b :: B = (A ++ [x]) ++ b :: B := by simp
    rw [e, List.drop_left, List.take_left]
    simp

/-- Overwriting the oldest slot of a full ring buffer and advancing the oldest
index circularly drops the oldest element and appends the new one. -/
theorem ring_set {α : Type} (l : List α) (o : Nat) (x y : α) (w0 : List α) (ho : o < l.length)
    (hw : l.drop o ++ l.take o = y :: w0) :
    (l.set o x).drop ((o + 1) % l.length) ++ (l.set o x).take ((o + 1) % l.length) = w0 ++ [x] ∧
      l[o]? = some y := by
  have hdrop : l.drop o = l[o] :: l.drop (o + 1) := List.drop_eq_getElem_cons ho
  have hl : l = l.take o ++ l[o] :: l.drop (o + 1) := by
    rw [← hdrop, List.take_append_drop]
  rw [hdrop] at hw
  simp only [List.cons_append, List.cons.injEq] at hw
  obtain ⟨hy, hw0⟩ := hw
  refine ⟨?_, by rw [List.getElem?_eq_getElem ho, hy]⟩
  have htl : (l.take o).length = o := by simp; omega
  have := ring_set_aux (l.take o) (l.drop (o + 1)) x l[o]
  rw [← hl, htl, hw0] at this
  exact this

namespace TempMedianFilter

/-- Whatever the samples are, `updateOne` touches only the multiset and the
median iterator of its column. -/
theorem updateOne_frame (s : TempMedianFilter) (idx : Nat) (v : float)
    (r : float × TempMedianFilter) (h : updateOne s idx v = some r) :
    r.2.m_N = s.m_N ∧ r.2.m_D = s.m_D ∧ r.2.m_preScans = s.m_preScans ∧
      r.2.m_oldestIndex = s.m_oldestIndex ∧ r.2.m_lastUpdatedScan = s.m_lastUpdatedScan := by
  unfold updateOne at h
  simp only [Option.bind_eq_bind, Option.pure_def] at h
  repeat' split at h
  all_goals first
    | (cases h; exact ⟨rfl, rfl, rfl, rfl, rfl⟩)
    | (exact absurd h (by simp))

/-- Whatever the samples are, the loop of `updateScan` leaves the sizes, the
history buffer and the oldest index as they are. -/
theorem updateScanFrom_frame : ∀ (rest : List float) (i : Nat) (s s' : TempMedianFilter),
    updateScanFrom s i rest = some s' →
      s'.m_N = s.m_N ∧ s'.m_D = s.m_D ∧ s'.m_preScans = s.m_preScans ∧
        s'.m_oldestIndex = s.m_oldestIndex := by
  intro rest
  induction rest with
  | nil =>
    intro i s s' h
    simp only [updateScanFrom, Option.some.injEq] at h
    subst h
    exact ⟨rfl, rfl, rfl, rfl⟩
  | cons v rest ih =>
    intro i s s' h
    simp only [updateScanFrom] at h
    cases hone : updateOne s i v with
    | none => rw [hone] at h; cases h
    | some r =>
      obtain ⟨med, s1⟩ := r
      rw [hone] at h
      simp only at h
      obtain ⟨e1, e2, e3, e4, -⟩ := updateOne_frame s i v _ hone
      split at h
      · obtain ⟨f1, f2, f3, f4⟩ := ih _ _ _ h
        exact ⟨f1.trans e1, f2.trans e2, f3.trans e3, f4.trans e4⟩
      · cases h

/-- The end of `update` once `updateScan` returned: the scan is pushed back
while the history buffer holds fewer than `D` scans and overwrites the oldest
slot afterwards, the oldest index then advancing circularly. -/
theorem update_ring (N D : Nat) (hist : List Scan) (s s1 : TempMedianFilter)
    (ring : RingInv N D hist s) (f : Scan) (hf : (f.length : Int) = s.m_N)
    (hrun : updateScan s f = some s1) :
    ∃ s', update s f = (.ok s1.m_lastUpdatedScan, s') ∧ RingInv N D (hist ++ [f]) s' ∧
      s'.m_multiSetVal = s1.m_multiSetVal ∧
      s'.m_multiSetMedianIter = s1.m_multiSetMedianIter ∧
      s'.m_lastUpdatedScan = s1.m_lastUpdatedScan ∧
      s'.m_preScans = (if hist.length < D then s.m_preScans ++ [f]
        else s.m_preScans.set s.m_oldestIndex.toNat f) := by
  obtain ⟨hN, hD, hpre, ho⟩ := updateScanFrom_frame f 0 s s1 hrun
  have hlenf : ¬ ((f.length : Int) ≠ s.m_N) := by simp [hf]
  by_cases hgrow : hist.length < D
  · -- the scan is pushed back
    have hlt : (s1.m_preScans.length : Int) < s1.m_D := by
      rw [hpre, hD, ring.lenPre, ring.hD]
      exact_mod_cast (by omega : min hist.length D < D)
    have ho0 : s.m_oldestIndex = 0 := by
      rw [ring.idx, show hist.length - D = 0 by omega]; simp
    refine ⟨{ s1 with m_preScans := s1.m_preScans ++ [f] }, ?_, ?_, rfl, rfl, rfl, ?_⟩
    · simp only [update, hlenf, if_false, hrun, hlt, if_true]
    · refine { posD := ring.posD, hN := hN.trans ring.hN, hD := hD.trans ring.hD, lenPre := ?_,
               idx := ?_, win := ?_ }
      · simp only [List.length_append, List.length_singleton, hpre, ring.lenPre]
        omega
      · simp only [ho, ho0, List.length_append, List.length_singleton]
        rw [show hist.length + 1 - D = 0 by omega]; simp
      · have hwin := ring.win
        simp only [window, ho0, Int.toNat_zero, List.drop_zero, List.take_zero,
          List.append_nil] at hwin
        simp only [window, ho, ho0, Int.toNat_zero, List.drop_zero, List.take_zero,
          List.append_nil, hpre, hwin]
        exact (lastN_append_grow D hist f hgrow).symm
    · simp only [hgrow, if_true, hpre]
  · -- the scan overwrites the oldest one
    have hlenpre : s.m_preScans.length = D := by rw [ring.lenPre]; omega
    have hnlt : ¬ (s1.m_preScans.length : Int) < s1.m_D := by
      rw [hpre, hD, hlenpre, ring.hD]; simp
    have hidx : 0 ≤ s1.m_oldestIndex ∧ s1.m_oldestIndex.toNat < s1.m_preScans.length := by
      rw [ho, hpre, ring.idx, hlenpre]
      exact ⟨Int.natCast_nonneg _, by rw [Int.toNat_ofNat]; exact Nat.mod_lt _ ring.posD⟩
    obtain ⟨y, w0, hy, hw0⟩ := lastN_append_full D hist f ring.posD hgrow
    have hwin := ring.win
    rw [hy, window, ring.idx, Int.toNat_ofNat] at hwin
    obtain ⟨hring, -⟩ := ring_set s.m_preScans _ f y w0
      (by rw [hlenpre]; exact Nat.mod_lt _ ring.posD) hwin
    have hposD := ring.posD
    have hnext : (s1.m_oldestIndex + 1).tmod s1.m_D
        = (((hist.length + 1 - D) % D : Nat) : Int) := by
      rw [ho, hD, ring.idx, ring.hD, Int.tmod_eq_emod (by omega) (by omega)]
      rw [show hist.length + 1 - D = hist.length - D + 1 by omega]
      exact_mod_cast Nat.mod_add_mod (hist.length - D) D 1
    refine ⟨{ s1 with
        m_preScans := s1.m_preScans.set s1.m_oldestIndex.toNat f
        m_oldestIndex := (s1.m_oldestIndex + 1).tmod s1.m_D }, ?_, ?_, rfl, rfl, rfl, ?_⟩
    · simp only [update, hlenf, if_false, hrun, hnlt, hidx, and_self, if_true]
    · refine { posD := ring.posD, hN := hN.trans ring.hN, hD := hD.trans ring.hD, lenPre := ?_,
               idx := ?_, win := ?_ }
      · simp only [List.length_set, List.length_append, List.length_singleton, hpre, hlenpre]
        omega
      · simp only [hnext, List.length_append, List.length_singleton]
      · simp only [window, hnext, Int.toNat_ofNat, hw0, hpre]
        rw [ho, ring.idx, Int.toNat_ofNat, ← hring, hlenpre,
          show hist.length + 1 - D = hist.length - D + 1 by omega,
          ← Nat.mod_add_mod (hist.length - D) D 1]
    · simp only [hgrow, if_false, hpre, ho]

/-- A call of `update` that returns a scan was given a scan of length `m_N` and
went through the loop of `updateScan`. -/
theorem update_ok (s s' : TempMedianFilter) (f out : Scan) (h : update s f = (.ok out, s')) :
    (f.length : Int) = s.m_N ∧ ∃ s1, updateScan s f = some s1 := by
  unfold update at h
  split at h
  · cases h
  · rename_i hlen
    refine ⟨not_not.mp hlen, ?_⟩
    cases hrun : updateScan s f with
    | none => rw [hrun] at h; cases h
    | some s1 => exact ⟨s1, rfl⟩

/-- Whatever the samples are, a call of `update` that returns a scan stores the
scan it was given in the ring. -/
theorem update_ok_ring (N D : Nat) (hist : List Scan) (s s' : TempMedianFilter)
    (ring : RingInv N D hist s) (f out : Scan) (h : update s f = (.ok out, s')) :
    RingInv N D (hist ++ [f]) s' ∧
      s'.m_preScans = (if hist.length < D then s.m_preScans ++ [f]
        else s.m_preScans.set s.m_oldestIndex.toNat f) := by
  obtain ⟨hf, s1, hrun⟩ := update_ok s s' f out h
  obtain ⟨s2, hupd, hring, -, -, -, hpre⟩ := update_ring N D hist s s1 ring f hf hrun
  rw [hupd] at h
  cases h
  exact ⟨hring, hpre⟩

theorem inv_scanCtx {N D : Nat} {hist : List Scan} {s : TempMedianFilter} (inv : Inv N D hist s)
    (f : Scan) (hf : f.length = N) (hfn : float.nan ∉ f) :
    ScanCtx N D (lastN D hist) (lastN D (hist ++ [f])) f s where
  hD := inv.ring.hD
  lenVal := inv.lenVal
  lenIter := inv.lenIter
  lenLast := inv.lenLast
  hw := fun g hg => inv.hhist g (mem_lastN D hist g hg)
  hwn := fun g hg => inv.hnan g (mem_lastN D hist g hg)
  hf := hf
  hfn := hfn
  grow := fun h => by
    rw [length_lastN] at h
    exact lastN_append_grow D hist f (by omega)
  full := fun h => by
    rw [length_lastN] at h
    have hge : ¬ hist.length < D := by omega
    obtain ⟨y, w0, hy, hw0⟩ := lastN_append_full D hist f inv.ring.posD hge
    refine ⟨y, w0, hy, ?_, hw0⟩
    have hlt : (hist.length - D) % D < s.m_preScans.length := by
      rw [inv.ring.lenPre, Nat.min_eq_right (by omega)]
      exact Nat.mod_lt _ inv.ring.posD
    have hwin := inv.ring.win
    rw [hy, window, inv.ring.idx, Int.toNat_ofNat] at hwin
    obtain ⟨-, hget⟩ := ring_set s.m_preScans _ f y w0 hlt hwin
    simp only [vectorAt, inv.ring.idx, Int.natCast_nonneg, if_true, Int.toNat_ofNat, hget]

/-- One `update` with a scan of length `N` without NaN: it returns, for every
column, the value at the middle of the column samples, in ascending order, of
the scans the history buffer then holds, and the state is that of a filter fed
one more scan. -/
theorem update_spec (N D : Nat) (hist : List Scan) (s : TempMedianFilter) (inv : Inv N D hist s)
    (f : Scan) (hf : f.length = N) (hfn : float.nan ∉ f) :
    ∃ s', update s f = (.ok s'.m_lastUpdatedScan, s') ∧ Inv N D (hist ++ [f]) s' ∧
      ∀ i, i < N → ∃ l, l.Sorted (· ≤ ·) ∧ l.Perm (column i (lastN D (hist ++ [f]))) ∧
        s'.m_lastUpdatedScan[i]? = middle l := by
  have ctx := inv_scanCtx inv f hf hfn
  obtain ⟨s1, hrun, -, -, -, -, h1, h2, h3, -, hafter⟩ :=
    updateScanFrom_spec N D _ _ f f 0 s ctx rfl (fun j _ hj => inv.cols j hj)
  obtain ⟨s', hupd, hring, e1, e2, e3, -⟩ :=
    update_ring N D hist s s1 inv.ring f (by rw [inv.ring.hN, hf]) hrun
  refine ⟨s', by rw [hupd, e3], ?_, fun i hi => by rw [e3]; exact (hafter i (by omega) hi).2⟩
  exact { ring := hring, posN := inv.posN, lenVal := by rw [e1]; exact h1,
          lenIter := by rw [e2]; exact h2, lenLast := by rw [e3]; exact h3,
          hhist := fun g hg => by
            rcases List.mem_append.mp hg with hg | hg
            · exact inv.hhist g hg
            · rw [List.mem_singleton.mp hg]; exact hf
          hnan := fun g hg => by
            rcases List.mem_append.mp hg with hg | hg
            · exact inv.hnan g hg
            · rw [List.mem_singleton.mp hg]; exact hfn
          cols := fun i hi => columnInv_congr (hafter i (by omega) hi).1
            (by rw [e1]) (by rw [e2]) }

end TempMedianFilter

theorem column_drop {α : Type} (i : Nat) (k : Nat) (w : List (List α))
    (hw : ∀ g ∈ w, i < g.length) : column i (w.drop k) = (column i w).drop k := by
  induction w generalizing k with
  | nil => simp [column]
  | cons g w ih =>
    have hlt : i < g.length := hw g (List.mem_cons_self _ _)
    have hg : g[i]? = some g[i] := List.getElem?_eq_getElem hlt
    cases k with
    | zero => rfl
    | succ k =>
      rw [column_cons i w g _ hg, List.drop_succ_cons, List.drop_succ_cons]
      exact ih k (fun g hg => hw g (List.mem_cons_of_mem _ hg))

/-- The column-`i` samples of the last `D` scans are the last `min(n, D)` raw
values of column `i`, `n` being the number of scans. -/
theorem column_lastN {α : Type} (i N D : Nat) (w : List (List α)) (hi : i < N)
    (hw : ∀ g ∈ w, g.length = N) :
    column i (lastN D w) = lastN (min w.length D) (column i w) := by
  unfold lastN
  rw [column_drop i _ w (fun g hg => by rw [hw g hg]; exact hi), length_column i N w hi hw]
  congr 1
  omega

namespace TempMedianFilter

theorem ctor_inv (n d : Int) (hn : 0 < n) (hd : 0 < d) :
    ∃ s0, ctor n d = .ok s0 ∧ Inv n.toNat d.toNat [] s0 := by
  refine ⟨_, by simp only [ctor]; rw [if_neg (by omega)], ?_⟩
  refine { ring := { posD := by omega, hN := by simp; omega, hD := by simp; omega,
                     lenPre := by simp, idx := by simp, win := by simp [window, lastN] },
           posN := by omega, lenVal := by simp, lenIter := by simp, lenLast := by simp,
           hhist := by simp, hnan := by simp,
           cols := fun i hi => ⟨[], by simp [List.getElem?_replicate, hi], List.sorted_nil,
             by simp [lastN, column], fun h => absurd rfl h⟩ }

theorem update_shape (s : TempMedianFilter) (f : Scan) (h : (f.length : Int) ≠ s.m_N) :
    update s f = (.error (.runtime_error
      "Invalid input in update function in TempMedianFilter: size doesn't match N!"), s) := by
  simp only [update, h, if_true, ne_eq, not_false_eq_true]

/-- Feeding scans of any length, those of length `N` without NaN: the state is
that of a filter fed only the scans of length `N`. -/
theorem feed_inv (N D : Nat) : ∀ (frames hist : List Scan) (s : TempMedianFilter),
    Inv N D hist s → (∀ g ∈ frames, g.length = N → float.nan ∉ g) →
      Inv N D (hist ++ frames.filter (fun g => g.length = N)) (feed s frames).2 := by
  intro frames
  induction frames with
  | nil => intro hist s inv _; simpa [feed] using inv
  | cons f rest ih =>
    intro hist s inv hnan
    have hnan' : ∀ g ∈ rest, g.length = N → float.nan ∉ g :=
      fun g hg => hnan g (List.mem_cons_of_mem _ hg)
    by_cases hf : f.length = N
    · obtain ⟨s', hupd, inv', -⟩ :=
        update_spec N D hist s inv f hf (hnan f (List.mem_cons_self _ _) hf)
      have := ih (hist ++ [f]) s' inv' hnan'
      simpa [feed, hupd, hf] using this
    · have hne : (f.length : Int) ≠ s.m_N := by rw [inv.ring.hN]; exact_mod_cast hf
      have := ih hist s inv hnan'
      simpa [feed, update_shape s f hne, hf] using this

/-- Feeding scans of length `N` without NaN: the `n`-th call returns a scan of
length `N` holding, for every column, the value at the middle of the window in
ascending order. -/
theorem feed_outputs (N D : Nat) : ∀ (frames hist : List Scan) (s : TempMedianFilter),
    Inv N D hist s → (∀ g ∈ frames, g.length = N) → (∀ g ∈ frames, float.nan ∉ g) →
      ∀ n, n < frames.length →
      ∃ out, (feed s frames).1[n]? = some (.ok out) ∧ out.length = N ∧
        ∀ i, i < N → ∃ l, l.Sorted (· ≤ ·) ∧
          l.Perm (column i (lastN D (hist ++ frames.take (n + 1)))) ∧ out[i]? = middle l := by
  intro frames
  induction frames with
  | nil => intro hist s _ _ _ n hn; simp at hn
  | cons f rest ih =>
    intro hist s inv hframes hnan n hn
    obtain ⟨s', hupd, inv', hout⟩ :=
      update_spec N D hist s inv f (hframes f (List.mem_cons_self _ _))
        (hnan f (List.mem_cons_self _ _))
    cases n with
    | zero =>
      exact ⟨s'.m_lastUpdatedScan, by simp [feed, hupd], inv'.lenLast, by simpa using hout⟩
    | succ n =>
      obtain ⟨out, h1, h2, h3⟩ := ih (hist ++ [f]) s' inv'
        (fun g hg => hframes g (List.mem_cons_of_mem _ hg))
        (fun g hg => hnan g (List.mem_cons_of_mem _ hg)) n (by simpa using hn)
      exact ⟨out, by simpa [feed, hupd] using h1, h2, by simpa using h3⟩

/-- Whatever the samples are, as long as every call returns a scan the ring
holds the scans given. -/
theorem feed_ring (N D : Nat) : ∀ (frames hist : List Scan) (s : TempMedianFilter),
    RingInv N D hist s → (∀ r ∈ (feed s frames).1, ∃ out, r = .ok out) →
      RingInv N D (hist ++ frames) (feed s frames).2 := by
  intro frames
  induction frames with
  | nil => intro hist s ring _; simpa [feed] using ring
  | cons f rest ih =>
    intro hist s ring hok
    simp only [feed, List.mem_cons, forall_eq_or_imp] at hok
    obtain ⟨⟨out, hout⟩, hrest⟩ := hok
    have hupd : update s f = (.ok out, (update s f).2) := by rw [← hout]
    obtain ⟨ring', -⟩ := update_ok_ring N D hist s _ ring f out hupd
    have := ih (hist ++ [f]) _ ring' hrest
    simpa [feed] using this

end TempMedianFilter

namespace RangeFilter

/-- A sample NaN goes through both tests of `update` unchanged. -/
theorem crop_nan (rf : RangeFilter) : rf.crop float.nan = float.nan := by
  unfold crop
  simp only [float.not_nan_lt, if_false, gt_iff_lt, float.not_lt_nan]

theorem crop_spec (rf : RangeFilter) (h : rf.range_min ≤ rf.range_max) (x : float) :
    (x < rf.range_min → rf.crop x = rf.range_min) ∧
      (x > rf.range_max → rf.crop x = rf.range_max) ∧
      (¬ x < rf.range_min → ¬ x > rf.range_max → rf.crop x = x) ∧
      (x ≠ float.nan → rf.range_min ≤ rf.crop x ∧ rf.crop x ≤ rf.range_max) := by
  have hminn := float.ne_nan_of_le_left h
  have hmaxn := float.ne_nan_of_le_right h
  have hnot : ¬ rf.range_min > rf.range_max := float.not_lt_of_le h
  unfold crop
  refine ⟨fun h1 => ?_, fun h1 => ?_, fun h1 h2 => ?_, fun hx => ?_⟩
  · simp only [h1, if_true]
    rw [if_neg hnot]
  · have h2 : ¬ x < rf.range_min := fun h2 =>
      float.not_lt_of_le (float.le_of_lt h1) (float.lt_of_lt_of_le h2 h)
    simp only [h2, if_false, h1, if_true]
  · simp only [h1, if_false, h2]
  · by_cases h1 : x < rf.range_min
    · simp only [h1, if_true]
      rw [if_neg hnot]
      exact ⟨float.le_refl_of_ne_nan hminn, h⟩
    · simp only [h1, if_false]
      split
      · exact ⟨h, float.le_refl_of_ne_nan hmaxn⟩
      · rename_i h2
        exact ⟨float.le_of_not_lt hx hminn h1, float.le_of_not_lt hmaxn hx h2⟩

/-- Cropping a cropped sample returns it. -/
theorem crop_crop (rf : RangeFilter) (h : rf.range_min ≤ rf.range_max) (x : float) :
    rf.crop (rf.crop x) = rf.crop x := by
  by_cases hx : x = float.nan
  · rw [hx, crop_nan, crop_nan]
  · obtain ⟨h1, h2⟩ := (crop_spec rf h x).2.2.2 hx
    exact (crop_spec rf h (rf.crop x)).2.2.1 (float.not_lt_of_le h1) (float.not_lt_of_le h2)

theorem afterCall_not_gt (rf : RangeFilter) (h : ¬ rf.range_min > rf.range_max) (c : Call) :
    ¬ (rf.afterCall c).range_min > (rf.afterCall c).range_max := by
  cases c with
  | setRange a b =>
    by_cases hab : a > b
    · simpa [afterCall, setRange, hab] using h
    · simp [afterCall, setRange, hab]
  | getRange => exact h
  | update f => exact h

theorem afterCalls_not_gt (calls : List Call) : ∀ (rf : RangeFilter),
    ¬ rf.range_min > rf.range_max →
      ¬ (rf.afterCalls calls).range_min > (rf.afterCalls calls).range_max := by
  induction calls with
  | nil => intro rf h; exact h
  | cons c cs ih => intro rf h; exact ih _ (afterCall_not_gt rf h c)

theorem afterCall_le (rf : RangeFilter) (h : rf.range_min ≤ rf.range_max) (c : Call)
    (hc : float.nan ∉ c.bounds) :
    (rf.afterCall c).range_min ≤ (rf.afterCall c).range_max := by
  cases c with
  | setRange a b =>
    by_cases hab : a > b
    · simpa [afterCall, setRange, hab] using h
    · have ha : a ≠ float.nan := fun e => hc (by simp [Call.bounds, e])
      have hb : b ≠ float.nan := fun e => hc (by simp [Call.bounds, e])
      simpa [afterCall, setRange, hab] using float.le_of_not_lt hb ha hab
  | getRange => exact h
  | update f => exact h

theorem afterCalls_le (calls : List Call) : ∀ (rf : RangeFilter),
    rf.range_min ≤ rf.range_max → (∀ c ∈ calls, float.nan ∉ c.bounds) →
      (rf.afterCalls calls).range_min ≤ (rf.afterCalls calls).range_max := by
  induction calls with
  | nil => intro rf h _; exact h
  | cons c cs ih =>
    intro rf h hc
    exact ih _ (afterCall_le rf h c (hc c (List.mem_cons_self _ _)))
      (fun c' hc' => hc c' (List.mem_cons_of_mem _ hc'))

end RangeFilter

namespace TempMedianFilter

theorem feed_length (s : TempMedianFilter) (frames : List Scan) :
    (feed s frames).1.length = frames.length := by
  induction frames generalizing s with
  | nil => rfl
  | cons f rest ih => simp [feed, ih]

theorem feed_inv_all (N D : Int) (hN : 0 < N) (frames : List Scan)
    (hframes : ∀ g ∈ frames, (g.length : Int) = N) (hnan : ∀ g ∈ frames, float.nan ∉ g)
    (s0 : TempMedianFilter) (inv : Inv N.toNat D.toNat [] s0) :
    Inv N.toNat D.toNat frames (feed s0 frames).2 := by
  have h := feed_inv N.toNat D.toNat frames [] s0 inv (fun g hg _ => hnan g hg)
  have hall : frames.filter (fun g => decide (g.length = N.toNat)) = frames := by
    rw [List.filter_eq_self]
    intro g hg
    have := hframes g hg
    simp only [decide_eq_true_eq]
    omega
  rw [hall] at h
  simpa using h

end TempMedianFilter

theorem eq_singleton_of_getElem? {α : Type} (out : List α) (m : α) (h1 : out.length = 1)
    (h2 : out[0]? = some m) : out = [m] := by
  match out, h1, h2 with
  | [x], _, h2 => simpa using h2

theorem column_take {α : Type} (i : Nat) (k : Nat) (w : List (List α))
    (hw : ∀ g ∈ w, i < g.length) : column i (w.take k) = (column i w).take k := by
  induction w generalizing k with
  | nil => simp [column]
  | cons g w ih =>
    have hlt : i < g.length := hw g (List.mem_cons_self _ _)
    have hg : g[i]? = some g[i] := List.getElem?_eq_getElem hlt
    cases k with
    | zero => simp [column]
    | succ k =>
      rw [List.take_succ_cons, column_cons i _ g _ hg, column_cons i w g _ hg,
        List.take_succ_cons, ih k (fun g hg => hw g (List.mem_cons_of_mem _ hg))]

/-- Two streams that agree at position `i` in every scan have the same column `i`. -/
theorem column_congr (i : Nat) (w1 w2 : List Scan)
    (h : List.Forall₂ (fun g1 g2 : Scan => g1[i]? = g2[i]?) w1 w2) :
    column i w1 = column i w2 := by
  induction h with
  | nil => rfl
  | cons hg _ ih => simp only [column, List.filterMap_cons, hg] at ih ⊢; rw [ih]

theorem column_singletons {α : Type} (l : List α) : column 0 (l.map (fun x => [x])) = l := by
  induction l with
  | nil => rfl
  | cons x l ih =>
    rw [List.map_cons, column_cons 0 _ [x] x rfl, ih]

/-- The values the median of column `i` is taken over at a call depend on the
column-`i` samples alone: they are the same for a stream that agrees at
position `i`, and for the stream of the column-`i` samples on their own. -/
theorem column_window_congr (i N D k : Nat) (hi : i < N) (w1 w2 : List Scan)
    (h1 : ∀ g ∈ w1, g.length = N) (h2 : ∀ g ∈ w2, g.length = N)
    (h : List.Forall₂ (fun g1 g2 : Scan => g1[i]? = g2[i]?) w1 w2) :
    column i (lastN D (w2.take k)) = column i (lastN D (w1.take k)) ∧
      column 0 (lastN D (((column i w1).map (fun x => [x])).take k))
        = column i (lastN D (w1.take k)) := by
  have ht := List.forall₂_take k h
  have hl := ht.length_eq
  constructor
  · rw [column_lastN i N D _ hi (fun g hg => h2 g (List.mem_of_mem_take hg)),
      column_lastN i N D _ hi (fun g hg => h1 g (List.mem_of_mem_take hg)),
      column_congr i _ _ ht, hl]
  · have hs : ∀ g ∈ ((column i w1).map (fun x => [x])).take k, g.length = 1 := by
      intro g hg
      obtain ⟨x, -, rfl⟩ := List.mem_map.mp (List.mem_of_mem_take hg)
      rfl
    rw [column_lastN 0 1 D _ Nat.zero_lt_one hs,
      column_lastN i N D _ hi (fun g hg => h1 g (List.mem_of_mem_take hg)),
      ← List.map_take, column_singletons,
      column_take i k w1 (fun g hg => by rw [h1 g hg]; exact hi)]
    simp only [List.length_map, List.length_take, length_column i N w1 hi h1]

theorem getElem?_of_lastN_eq_cons {α : Type} (c : Nat) (l : List α) (y : α) (w0 : List α)
    (h : lastN c l = y :: w0) : l[l.length - c]? = some y := by
  have := congrArg (fun t => t[0]?) h
  simpa [lastN, List.getElem?_drop] using this

namespace TempMedianFilter

/-- The slot the oldest index designates in a full history buffer holds the
oldest retained scan. -/
theorem oldest_slot (N D : Nat) (hist : List Scan) (s : TempMedianFilter)
    (ring : RingInv N D hist s) (hfull : D ≤ hist.length) :
    ∃ oldest w0, lastN D hist = oldest :: w0 ∧ hist[hist.length - D]? = some oldest ∧
      vectorAt s.m_preScans s.m_oldestIndex = some oldest := by
  have hposD := ring.posD
  have hlen := length_lastN D hist
  cases hy : lastN D hist with
  | nil => rw [hy] at hlen; simp at hlen; omega
  | cons y w0 =>
    refine ⟨y, w0, rfl, getElem?_of_lastN_eq_cons D hist y w0 hy, ?_⟩
    have hlt : (hist.length - D) % D < s.m_preScans.length := by
      rw [ring.lenPre, Nat.min_eq_right (by omega)]
      exact Nat.mod_lt _ ring.posD
    have hwin := ring.win
    rw [hy, window, ring.idx, Int.toNat_ofNat] at hwin
    obtain ⟨-, hget⟩ := ring_set s.m_preScans _ y y w0 hlt hwin
    simp only [vectorAt, ring.idx, Int.natCast_nonneg, if_true, Int.toNat_ofNat, hget]

/-- At the removal on a full window without NaN, the node found by
`lower_bound` holds the oldest value, the median iterator designates an element,
and the two nodes differ. -/
theorem removalRanks_full (s : TempMedianFilter) (idx : Nat) (v : float) (l : multiset)
    (oldScan : Scan) (old : float)
    (hl : s.m_multiSetVal[idx]? = some l) (hs : l.Sorted (· ≤ ·))
    (hn : float.nan ∉ l) (hvn : v ≠ float.nan) (hne : l ≠ [])
    (hmid : s.m_multiSetMedianIter[idx]? = some (some (l.length / 2)))
    (hk : ¬ (l.length : Int) < s.m_D)
    (hscan : vectorAt s.m_preScans s.m_oldestIndex = some oldScan)
    (hold : oldScan[idx]? = some old) (hmem : old ∈ l) :
    ∃ q mid x, removalRanks s idx v = some (q, mid) ∧ q = lower_bound (insert l v) old ∧
      deref (insert l v) q = some old ∧ deref (insert l v) mid = some x ∧ q ≠ mid := by
  have he : l.isEmpty = false := by cases l <;> simp at hne ⊢
  have hlen : 0 < l.length := List.length_pos.mpr hne
  have hs' := sorted_insert l v hs hvn hn
  have hn' := not_mem_insert l v hvn hn
  have holdn : old ≠ float.nan := fun h => hn (h ▸ hmem)
  have hlen' := length_insert l v
  obtain ⟨-, -, -, hq⟩ := replaced_props l v old hs hn hvn hmem
  have hd1 : ∃ x1, (insert l v)[after_insert (l.length / 2) (upper_bound l v)]? = some x1 := by
    refine ⟨_, List.getElem?_eq_getElem ?_⟩
    unfold after_insert
    split <;> omega
  obtain ⟨x1, hx1⟩ := hd1
  have hlt1 := lt_insert_iff l v hs hn _ x1 hx1
  have hd2 : ∃ x2, (insert l v)[l.length / 2]? = some x2 :=
    ⟨_, List.getElem?_eq_getElem (by omega)⟩
  obtain ⟨x2, hx2⟩ := hd2
  have hle2 := le_iff_lower_bound (insert l v) old hs' holdn hn' _ x2 hx2
  have hd3 : ∃ x3, (insert l v)[if old ≤ x2 then l.length / 2 + 1 else l.length / 2]?
      = some x3 := by
    refine ⟨_, List.getElem?_eq_getElem ?_⟩
    split <;> omega
  obtain ⟨x3, hx3⟩ := hd3
  have hneq : lower_bound (insert l v) old
      ≠ (if old ≤ x2 then l.length / 2 + 1 else l.length / 2) := by
    by_cases hc : old ≤ x2
    · have := hle2.mp hc
      rw [if_pos hc]
      omega
    · have : ¬ lower_bound (insert l v) old ≤ l.length / 2 := fun h => hc (hle2.mpr h)
      rw [if_neg hc]
      omega
  refine ⟨_, _, x3, ?_, rfl, hq, hx3, hneq⟩
  simp only [removalRanks, hl, hmid, he, hk, Bool.false_eq_true, if_false, hscan, hold]
  by_cases hp : upper_bound l v ≤ l.length / 2
  · have hai : after_insert (l.length / 2) (upper_bound l v) = l.length / 2 + 1 := by
      simp [after_insert, hp]
    rw [hai] at hlt1 hx1
    have hc : v < x1 := hlt1.mpr (by omega)
    have hprev : prev (l.length / 2 + 1) 1 = some (l.length / 2) := prev_eq _ _ _ (by omega)
    simp only [deref, hai, hx1, hc, if_true, hprev, hx2]
  · have hai : after_insert (l.length / 2) (upper_bound l v) = l.length / 2 := by
      simp [after_insert, hp]
    rw [hai] at hlt1 hx1
    have hx : x1 = x2 := Option.some.inj (hx1.symm.trans hx2)
    have hc : ¬ v < x2 := fun h => by have := hlt1.mp (hx ▸ h); omega
    simp only [deref, hai, hx2, hc, if_false]

/-- The removal step of a column of a full filter, from the invariant of the
column. -/
theorem removalRanks_column (N D : Nat) (w w' : List Scan) (f : Scan) (s : TempMedianFilter)
    (ctx : ScanCtx N D w w' f s) (i : Nat) (hi : i < N) (v : float) (hvn : v ≠ float.nan)
    (hcol : ColumnInv s w i) (hk : ¬ w.length < D) :
    ∃ oldScan old l q mid x, vectorAt s.m_preScans s.m_oldestIndex = some oldScan ∧
      oldScan[i]? = some old ∧ s.m_multiSetVal[i]? = some l ∧ old ∈ l ∧
      removalRanks s i v = some (q, mid) ∧ q = lower_bound (insert l v) old ∧
      deref (insert l v) q = some old ∧ deref (insert l v) mid = some x ∧ q ≠ mid := by
  obtain ⟨l, hl, hs, hperm, hmid⟩ := hcol
  have hlen : l.length = w.length := by
    rw [hperm.length_eq, length_column i N w hi ctx.hw]
  have hn : float.nan ∉ l := fun h => not_mem_column i w ctx.hwn (hperm.mem_iff.mp h)
  obtain ⟨oldScan, w0, hw, hscan, -⟩ := ctx.full hk
  have hilt : i < oldScan.length := by
    rw [ctx.hw oldScan (by rw [hw]; exact List.mem_cons_self _ _)]; exact hi
  obtain ⟨old, hold⟩ : ∃ old, oldScan[i]? = some old :=
    ⟨_, List.getElem?_eq_getElem hilt⟩
  have hcolw : column i w = old :: column i w0 := by rw [hw, column_cons i w0 oldScan old hold]
  rw [hcolw] at hperm
  have hmem : old ∈ l := hperm.mem_iff.mpr (List.mem_cons_self _ _)
  have hne : l ≠ [] := List.ne_nil_of_mem hmem
  have hk' : ¬ (l.length : Int) < s.m_D := by
    rw [ctx.hD, hlen]; exact_mod_cast hk
  obtain ⟨q, mid, x, h1, h2, h3, h4, h5⟩ :=
    removalRanks_full s i v l oldScan old hl hs hn hvn hne (hmid hne) hk' hscan hold hmem
  exact ⟨oldScan, old, l, q, mid, x, hscan, hold, hl, hmem, h1, h2, h3, h4, h5⟩

/-- The loop of `updateScan` over `xs ++ ys` is the loop over `xs` followed by
the loop over `ys`. -/
theorem updateScanFrom_append (xs ys : List float) : ∀ (i : Nat) (s : TempMedianFilter),
    updateScanFrom s i (xs ++ ys)
      = (updateScanFrom s i xs).bind (fun s' => updateScanFrom s' (i + xs.length) ys) := by
  induction xs with
  | nil => intro i s; simp [updateScanFrom]
  | cons x xs ih =>
    intro i s
    simp only [List.cons_append, updateScanFrom, List.length_cons]
    cases h : updateOne s i x with
    | none => rfl
    | some r =>
      obtain ⟨med, s1⟩ := r
      simp only
      split
      · refine (ih (i + 1) _).trans ?_
        rw [show i + 1 + xs.length = i + (xs.length + 1) by omega]
      · rfl

/-- The loop of `updateScan` over the columns from `i` on that `rest` covers:
it succeeds, and the columns behind these are as they were before the scan. -/
theorem updateScanFrom_prefix (N D : Nat) (w w' : List Scan) (f : Scan) :
    ∀ (rest : List float) (i : Nat) (s : TempMedianFilter) (tl : List float),
      ScanCtx N D w w' f s →
      f.drop i = rest ++ tl → (∀ j, i ≤ j → j < N → ColumnInv s w j) →
      ∃ s', updateScanFrom s i rest = some s' ∧ ScanCtx N D w w' f s' ∧
        (∀ j, i + rest.length ≤ j → j < N → ColumnInv s' w j) := by
  intro rest
  induction rest with
  | nil =>
    intro i s tl ctx _ hcols
    exact ⟨s, rfl, ctx, fun j hj hjN => hcols j (by simpa using hj) hjN⟩
  | cons v rest ih =>
    intro i s tl ctx hdrop hcols
    have hv : f[i]? = some v := by
      have := congrArg (fun l => l[0]?) hdrop
      simpa [List.getElem?_drop] using this
    have hi : i < N := by
      rw [← ctx.hf]
      by_contra h
      rw [List.getElem?_eq_none (not_lt.mp h)] at hv
      exact absurd hv (by simp)
    have hdrop' : f.drop (i + 1) = rest ++ tl := by
      have := congrArg (fun l => l.drop 1) hdrop
      simpa [List.drop_drop, Nat.add_comm] using this
    obtain ⟨med, l', hupd, -, -, -⟩ :=
      updateOne_column N D w w' f s ctx i hi v hv (hcols i (le_refl _) hi)
    have hlast : i < s.m_lastUpdatedScan.length := by rw [ctx.lenLast]; exact hi
    obtain ⟨s', hrun, ctx', hafter⟩ :=
      ih (i + 1)
        { s with
          m_multiSetVal := s.m_multiSetVal.set i l'
          m_multiSetMedianIter := s.m_multiSetMedianIter.set i (some (l'.length / 2))
          m_lastUpdatedScan := s.m_lastUpdatedScan.set i med } tl
        (scanCtx_congr ctx rfl rfl rfl (by simp [ctx.lenVal]) (by simp [ctx.lenIter])
          (by simp [ctx.lenLast]))
        hdrop'
        (fun j hj hjN => columnInv_congr (hcols j (by omega) hjN)
          (by simp [List.getElem?_set_ne (show i ≠ j by omega)])
          (by simp [List.getElem?_set_ne (show i ≠ j by omega)]))
    refine ⟨s', ?_, ctx', fun j hj hjN => hafter j (by simp at hj; omega) hjN⟩
    simp only [updateScanFrom, hupd, hlast, if_true]
    exact hrun

end TempMedianFilter

theorem lastN_one_take {α : Type} (l : List α) (n : Nat) (hn : n < l.length) :
    lastN 1 (l.take (n + 1)) = [l[n]] := by
  unfold lastN
  rw [List.length_take, Nat.min_eq_left (by omega), Nat.add_sub_cancel, List.drop_take,
    Nat.add_sub_cancel_left, List.drop_eq_getElem_cons hn]
  rfl

namespace float

end float

namespace TempMedianFilter

end TempMedianFilter

/-! ## Scans of finite samples -/

theorem length_exactScan (g : List ℚ) : (exactScan g).length = g.length :=
  List.length_map _ _

theorem not_mem_exactScan (g : List ℚ) : float.nan ∉ exactScan g := by
  simp [exactScan]

theorem exactScans_props (N : Nat) (frames : List (List ℚ)) (h : ∀ g ∈ frames, g.length = N) :
    (∀ g ∈ exactScans frames, g.length = N) ∧ (∀ g ∈ exactScans frames, float.nan ∉ g) := by
  constructor
  · intro g hg
    obtain ⟨g0, hg0, rfl⟩ := List.mem_map.mp hg
    rw [length_exactScan, h g0 hg0]
  · intro g hg
    obtain ⟨g0, -, rfl⟩ := List.mem_map.mp hg
    exact not_mem_exactScan g0

theorem column_exactScans (i : Nat) (frames : List (List ℚ)) :
    column i (exactScans frames) = (column i frames).map float.finite := by
  induction frames with
  | nil => rfl
  | cons g rest ih =>
    simp only [exactScans, List.map_cons, column, List.filterMap_cons] at ih ⊢
    simp only [exactScan, List.getElem?_map]
    cases g[i]? with
    | none => simpa using ih
    | some x => simpa using ih

theorem lastN_map {α β : Type} (c : Nat) (l : List α) (f : α → β) :
    lastN c (l.map f) = (lastN c l).map f := by
  simp [lastN, List.map_drop]

namespace TempMedianFilter

/-- Feeding scans of finite samples: the `n`-th call returns a scan of length
`N` holding, for every column, the median by sorting of the last `min(n, D)`
values of the column. -/
theorem feed_outputs_exact (N D : Nat) (frames : List (List ℚ)) (s0 : TempMedianFilter)
    (inv : Inv N D [] s0) (hframes : ∀ g ∈ frames, g.length = N) (n : Nat)
    (hn : n < frames.length) :
    ∃ out, (feed s0 (exactScans frames)).1[n]? = some (.ok out) ∧ out.length = N ∧
      ∀ i, i < N → out[i]? =
        (sortedMedian (lastN (min (n + 1) D) (column i (frames.take (n + 1))))).map
          float.finite := by
  obtain ⟨h1, h2⟩ := exactScans_props N frames hframes
  obtain ⟨out, e1, e2, e3⟩ := feed_outputs N D (exactScans frames) [] s0 inv h1 h2 n
    (by rw [exactScans, List.length_map]; exact hn)
  refine ⟨out, e1, e2, fun i hi => ?_⟩
  obtain ⟨l, hs, hp, hl⟩ := e3 i hi
  have htake : (exactScans frames).take (n + 1) = exactScans (frames.take (n + 1)) := by
    simp [exactScans, List.map_take]
  rw [List.nil_append, htake, exactScans, lastN_map] at hp
  change l.Perm (column i (exactScans _)) at hp
  rw [column_exactScans,
    column_lastN i N D (frames.take (n + 1)) hi
      (fun g hg => hframes g (List.mem_of_mem_take hg)),
    List.length_take, Nat.min_eq_left (show n + 1 ≤ frames.length by omega)] at hp
  rw [hl, middle_exact l _ hs hp]

end TempMedianFilter

/-! # The claims -/

open TempMedianFilter

/-- C1 (median correctness): for `N > 0`, `D > 0` and scans of length `N`,
their samples exact numbers, fed one per call to a fresh `TempMedianFilter(N, D)`,
the `n`-th call (`n ≥ 1`) returns a scan of length `N` whose sample at every
column `i` is the median by sorting of the last `min(n, D)` raw values of
column `i`: the middle value for an odd count, the mean of the two middle values
for an even count. -/
theorem median_correct (N D : Int) (hN : 0 < N) (hD : 0 < D) (frames : List (List ℚ))
    (hframes : ∀ g ∈ frames, (g.length : Int) = N) :
    ∃ s0, ctor N D = .ok s0 ∧
      ∀ n, 1 ≤ n → n ≤ frames.length →
        ∃ out, (feed s0 (exactScans frames)).1[n - 1]? = some (.ok out) ∧
          (out.length : Int) = N ∧
          ∀ i, i < out.length → ∃ m, out[i]? = some (float.finite m) ∧
            sortedMedian (lastN (min n D.toNat) (column i (frames.take n))) = some m := by
  obtain ⟨s0, h0, inv⟩ := ctor_inv N D hN hD
  refine ⟨s0, h0, fun n h1 hn => ?_⟩
  have hframes' : ∀ g ∈ frames, g.length = N.toNat := fun g hg => by
    have := hframes g hg
    omega
  obtain ⟨out, e1, e2, e3⟩ :=
    feed_outputs_exact N.toNat D.toNat frames s0 inv hframes' (n - 1) (by omega)
  refine ⟨out, e1, by omega, fun i hi => ?_⟩
  have h := e3 i (by omega)
  rw [List.getElem?_eq_getElem hi, show n - 1 + 1 = n by omega] at h
  obtain ⟨m, hm, hfin⟩ := Option.map_eq_some'.mp h.symm
  exact ⟨m, by rw [List.getElem?_eq_getElem hi, hfin], hm⟩

theorem median_correct_witness :
    (0 : Int) < 1 ∧ (0 : Int) < 3 ∧
      (∀ g ∈ [[(1 : ℚ)], [3], [2], [5]], (g.length : Int) = 1) ∧
      ∃ s0, ctor 1 3 = .ok s0 ∧
        ∀ n, 1 ≤ n → n ≤ [[(1 : ℚ)], [3], [2], [5]].length →
          ∃ out, (feed s0 (exactScans [[1], [3], [2], [5]])).1[n - 1]? = some (.ok out) ∧
            (out.length : Int) = 1 ∧
            ∀ i, i < out.length → ∃ m, out[i]? = some (float.finite m) ∧
              sortedMedian (lastN (min n (3 : Int).toNat)
                (column i ([[(1 : ℚ)], [3], [2], [5]].take n))) = some m :=
  ⟨by decide, by decide, by simp,
    median_correct 1 3 (by decide) (by decide) [[1], [3], [2], [5]] (by simp)⟩

/-- C2 fails for a sample NaN: `RangeFilter(2, 4).update` returns a sample NaN
as it is, and NaN does not lie in `[2, 4]`. -/
theorem clamp_nan_passes :
    (2 : float) ≤ 4 ∧ ∃ rf, RangeFilter.ctor 2 4 = .ok rf ∧
      (rf.update [float.nan]).1 = [float.nan] ∧
      ¬ ((2 : float) ≤ float.nan ∧ float.nan ≤ (4 : float)) :=
  ⟨by decide, _, rfl, rfl, by decide⟩

/-- C2 (clamp correctness, for samples other than NaN): for bounds `min ≤ max` the filter
`RangeFilter(min, max)` is constructed and its `update` keeps the length of the
scan and maps every sample below `min` to `min`, every sample above `max` to
`max` and every other sample to itself; so every output sample whose input is
not NaN lies in `[min, max]`, and a sample already in range is returned
unchanged. -/
theorem clamp_correct (minRange maxRange : float) (h : minRange ≤ maxRange) (f : Scan) :
    ∃ rf, RangeFilter.ctor minRange maxRange = .ok rf ∧
      (rf.update f).1.length = f.length ∧
      ∀ (k : Nat) (x : float), f[k]? = some x → ∃ y, (rf.update f).1[k]? = some y ∧
        (x < minRange → y = minRange) ∧ (x > maxRange → y = maxRange) ∧
        (¬ x < minRange → ¬ x > maxRange → y = x) ∧
        (x ≠ float.nan → minRange ≤ y ∧ y ≤ maxRange) ∧
        (minRange ≤ x → x ≤ maxRange → y = x) := by
  refine ⟨⟨minRange, maxRange⟩, ?_, ?_, ?_⟩
  · simp only [RangeFilter.ctor]
    rw [if_neg (float.not_lt_of_le h)]
  · simp [RangeFilter.update]
  · intro k x hx
    obtain ⟨c1, c2, c3, c4⟩ := RangeFilter.crop_spec ⟨minRange, maxRange⟩ h x
    refine ⟨RangeFilter.crop ⟨minRange, maxRange⟩ x, ?_, c1, c2, c3, c4,
      fun h1 h2 => c3 (float.not_lt_of_le h1) (float.not_lt_of_le h2)⟩
    simp [RangeFilter.update, List.getElem?_map, hx]

theorem clamp_correct_witness :
    (2 : float) ≤ 4 ∧ ∃ rf, RangeFilter.ctor 2 4 = .ok rf ∧
      (rf.update [0, 1, 2, 1, 3]).1.length = [(0 : float), 1, 2, 1, 3].length ∧
      ∀ (k : Nat) (x : float), [(0 : float), 1, 2, 1, 3][k]? = some x →
        ∃ y, (rf.update [0, 1, 2, 1, 3]).1[k]? = some y ∧
        (x < 2 → y = 2) ∧ (x > 4 → y = 4) ∧ (¬ x < 2 → ¬ x > 4 → y = x) ∧
        (x ≠ float.nan → 2 ≤ y ∧ y ≤ 4) ∧ (2 ≤ x → x ≤ 4 → y = x) :=
  ⟨by decide, clamp_correct 2 4 (by decide) [0, 1, 2, 1, 3]⟩

/-- C4 (range validation): with `min > max` the constructor of `RangeFilter`
throws, and `setRange(minRange, maxRange)` throws and leaves the object, hence what
`getRange` returns, as it was. -/
theorem range_validation (minRange maxRange : float) (h : minRange > maxRange) :
    (∃ what, RangeFilter.ctor minRange maxRange = .error (.runtime_error what)) ∧
      ∀ rf : RangeFilter,
        (∃ what, (rf.setRange minRange maxRange).1 = .error (.runtime_error what)) ∧
        (rf.setRange minRange maxRange).2 = rf ∧
        (rf.setRange minRange maxRange).2.getRange.1 = rf.getRange.1 := by
  refine ⟨⟨_, by rw [RangeFilter.ctor, if_pos h]⟩, fun rf => ?_⟩
  rw [RangeFilter.setRange, if_pos h]
  exact ⟨⟨_, rfl⟩, rfl, rfl⟩

theorem range_validation_witness :
    (4 : float) > 2 ∧ (∃ what, RangeFilter.ctor 4 2 = .error (.runtime_error what)) ∧
      ∀ rf : RangeFilter, (∃ what, (rf.setRange 4 2).1 = .error (.runtime_error what)) ∧
        (rf.setRange 4 2).2 = rf ∧ (rf.setRange 4 2).2.getRange.1 = rf.getRange.1 :=
  ⟨by decide, range_validation 4 2 (by decide)⟩

/-- C5 (construction): `TempMedianFilter(N, D)` throws exactly when `N ≤ 0` or
`D ≤ 0`; when it succeeds the filter has `N` column windows, all empty, an
empty history buffer and the oldest-slot index 0. -/
theorem ctor_spec (n d : Int) :
    ((∃ what, ctor n d = .error (.runtime_error what)) ↔ (n ≤ 0 ∨ d ≤ 0)) ∧
      ∀ s, ctor n d = .ok s →
        (s.m_multiSetVal.length : Int) = n ∧ (∀ l ∈ s.m_multiSetVal, l = []) ∧
          s.m_preScans = [] ∧ s.m_oldestIndex = 0 := by
  by_cases h : n ≤ 0 ∨ d ≤ 0
  · have hc : ctor n d = .error (.runtime_error
        "Invalid number settings in TempMedianFilter: N <= 0 or D <= 0!") := by
      rw [ctor, if_pos h]
    refine ⟨⟨fun _ => h, fun _ => ⟨_, hc⟩⟩, fun s hs => ?_⟩
    rw [hc] at hs
    cases hs
  · refine ⟨⟨fun ⟨w, hw⟩ => ?_, fun h' => absurd h' h⟩, fun s hs => ?_⟩
    · rw [ctor, if_neg h] at hw
      cases hw
    · rw [ctor, if_neg h] at hs
      cases hs
      refine ⟨?_, fun l hl => (List.eq_of_mem_replicate hl), rfl, rfl⟩
      simp only [List.length_replicate]
      omega

theorem ctor_spec_witness :
    ((∃ what, ctor 5 4 = .error (.runtime_error what)) ↔
      ((5 : Int) ≤ 0 ∨ (4 : Int) ≤ 0)) ∧
      ∀ s, ctor 5 4 = .ok s →
        (s.m_multiSetVal.length : Int) = 5 ∧ (∀ l ∈ s.m_multiSetVal, l = []) ∧
          s.m_preScans = [] ∧ s.m_oldestIndex = 0 :=
  ctor_spec 5 4

/-- C7 (clamp idempotence): for a `RangeFilter` with bounds `min ≤ max`,
`update(update(f)) = update(f)`. -/
theorem clamp_idempotent (rf : RangeFilter) (h : rf.range_min ≤ rf.range_max) (f : Scan) :
    (rf.update (rf.update f).1).1 = (rf.update f).1 := by
  simp only [RangeFilter.update, List.map_map]
  apply List.map_congr_left
  intro x _
  exact RangeFilter.crop_crop rf h x

theorem clamp_idempotent_witness :
    (2 : float) ≤ 4 ∧
      ((RangeFilter.mk 2 4).update ((RangeFilter.mk 2 4).update [0, 1, 2, 1, 3]).1).1
        = ((RangeFilter.mk 2 4).update [0, 1, 2, 1, 3]).1 :=
  ⟨by decide, clamp_idempotent ⟨2, 4⟩ (by decide) [0, 1, 2, 1, 3]⟩

/-- C8 (bounds are stored, only `setRange` changes them): for `min ≤ max` the
constructor and `setRange` succeed and `getRange` then returns `(minRange, maxRange)`;
`getRange` and `update` leave the object as it was. -/
theorem bounds_stored (minRange maxRange : float) (h : minRange ≤ maxRange) :
    (∃ rf, RangeFilter.ctor minRange maxRange = .ok rf ∧
      rf.getRange.1 = (minRange, maxRange)) ∧
      (∀ rf : RangeFilter, (rf.setRange minRange maxRange).1 = .ok () ∧
        (rf.setRange minRange maxRange).2.getRange.1 = (minRange, maxRange)) ∧
      (∀ rf : RangeFilter, rf.getRange.2 = rf ∧ ∀ f, (rf.update f).2 = rf) := by
  have hn : ¬ minRange > maxRange := float.not_lt_of_le h
  refine ⟨⟨⟨minRange, maxRange⟩, ?_, rfl⟩, fun rf => ?_,
    fun rf => ⟨rfl, fun f => rfl⟩⟩
  · simp only [RangeFilter.ctor, hn, if_false]
  · simp only [RangeFilter.setRange, hn, if_false, RangeFilter.getRange, and_self]

theorem bounds_stored_witness :
    (2 : float) ≤ 4 ∧ (∃ rf, RangeFilter.ctor 2 4 = .ok rf ∧ rf.getRange.1 = (2, 4)) ∧
      (∀ rf : RangeFilter, (rf.setRange 2 4).1 = .ok () ∧
        (rf.setRange 2 4).2.getRange.1 = (2, 4)) ∧
      (∀ rf : RangeFilter, rf.getRange.2 = rf ∧ ∀ f, (rf.update f).2 = rf) :=
  ⟨by decide, bounds_stored 2 4 (by decide)⟩

/-- C9 (concrete scenario): a fresh `TempMedianFilter(1, 3)` fed the scans
`[1]`, `[3]`, `[2]`, `[5]` returns `[1]`, `[2]`, `[2]`, `[3]`. -/
theorem scenario_single_column : ∃ s0, ctor 1 3 = .ok s0 ∧
    (feed s0 [[1], [3], [2], [5]]).1 = [.ok [1], .ok [2], .ok [2], .ok [3]] := by
  obtain ⟨s0, h0, inv⟩ := ctor_inv 1 3 (by norm_num) (by norm_num)
  refine ⟨s0, h0, ?_⟩
  have hframes : ∀ g ∈ [[(1 : ℚ)], [3], [2], [5]], g.length = (1 : Int).toNat := by
    intro g hg
    simp only [List.mem_cons, List.mem_singleton, List.not_mem_nil, or_false] at hg
    rcases hg with rfl | rfl | rfl | rfl <;> rfl
  have key := fun n hn => feed_outputs_exact _ _ [[1], [3], [2], [5]] s0 inv hframes n hn
  have hlen := feed_length s0 [[1], [3], [2], [5]]
  obtain ⟨o0, e0, l0, m0⟩ := key 0 (by norm_num)
  obtain ⟨o1, e1, l1, m1⟩ := key 1 (by norm_num)
  obtain ⟨o2, e2, l2, m2⟩ := key 2 (by norm_num)
  obtain ⟨o3, e3, l3, m3⟩ := key 3 (by norm_num)
  have s0' : sortedMedian (lastN (min (0 + 1) (3 : Int).toNat)
      (column 0 (List.take (0 + 1) [[(1 : ℚ)], [3], [2], [5]]))) = some 1 := by
    norm_num [sortedMedian, List.insertionSort, List.orderedInsert, lastN, column]
  have s1' : sortedMedian (lastN (min (1 + 1) (3 : Int).toNat)
      (column 0 (List.take (1 + 1) [[(1 : ℚ)], [3], [2], [5]]))) = some 2 := by
    norm_num [sortedMedian, List.insertionSort, List.orderedInsert, lastN, column]
  have s2' : sortedMedian (lastN (min (2 + 1) (3 : Int).toNat)
      (column 0 (List.take (2 + 1) [[(1 : ℚ)], [3], [2], [5]]))) = some 2 := by
    norm_num [sortedMedian, List.insertionSort, List.orderedInsert, lastN, column]
  have s3' : sortedMedian (lastN (min (3 + 1) (3 : Int).toNat)
      (column 0 (List.take (3 + 1) [[(1 : ℚ)], [3], [2], [5]]))) = some 3 := by
    norm_num [sortedMedian, List.insertionSort, List.orderedInsert, lastN, column]
  have r0 := eq_singleton_of_getElem? o0 (float.finite 1) l0
    ((m0 0 (by norm_num)).trans (by rw [s0']; rfl))
  have r1 := eq_singleton_of_getElem? o1 (float.finite 2) l1
    ((m1 0 (by norm_num)).trans (by rw [s1']; rfl))
  have r2 := eq_singleton_of_getElem? o2 (float.finite 2) l2
    ((m2 0 (by norm_num)).trans (by rw [s2']; rfl))
  have r3 := eq_singleton_of_getElem? o3 (float.finite 3) l3
    ((m3 0 (by norm_num)).trans (by rw [s3']; rfl))
  subst r0 r1 r2 r3
  apply List.ext_getElem?
  intro n
  match n with
  | 0 => exact e0
  | 1 => exact e1
  | 2 => exact e2
  | 3 => exact e3
  | n + 4 =>
    rw [List.getElem?_eq_none (by rw [hlen]; simp), List.getElem?_eq_none (by simp)]

/-- C11 fails for a bound NaN: `RangeFilter(NaN, 1)` is constructed, and
`setRange(5, NaN)` on a `RangeFilter(2, 4)` succeeds; in both objects
`range_min <= range_max` is false. -/
theorem range_accepts_nan :
    RangeFilter.ctor float.nan 1 = .ok ⟨float.nan, 1⟩ ∧
      ¬ ((RangeFilter.mk float.nan 1).afterCalls []).range_min
          ≤ ((RangeFilter.mk float.nan 1).afterCalls []).range_max ∧
      RangeFilter.ctor 2 4 = .ok ⟨2, 4⟩ ∧
      ((RangeFilter.mk 2 4).setRange 5 float.nan).1 = .ok () ∧
      ¬ ((RangeFilter.mk 2 4).afterCalls [.setRange 5 float.nan]).range_min
          ≤ ((RangeFilter.mk 2 4).afterCalls [.setRange 5 float.nan]).range_max :=
  ⟨rfl, by decide, rfl, rfl, by decide⟩

/-- C11 (configuration invariant of `RangeFilter`, bounds other than NaN): after a successful
construction followed by any sequence of `setRange` (succeeding or throwing),
`getRange` and `update` calls, the stored bounds never satisfy
`range_min > range_max`; they satisfy `range_min ≤ range_max` when no bound
given to the constructor or to `setRange` is NaN. -/
theorem range_invariant (minRange maxRange : float) (rf : RangeFilter)
    (h : RangeFilter.ctor minRange maxRange = .ok rf) (calls : List RangeFilter.Call) :
    ¬ (rf.afterCalls calls).range_min > (rf.afterCalls calls).range_max ∧
      (minRange ≠ float.nan → maxRange ≠ float.nan → (∀ c ∈ calls, float.nan ∉ c.bounds) →
        (rf.afterCalls calls).range_min ≤ (rf.afterCalls calls).range_max) := by
  unfold RangeFilter.ctor at h
  split at h
  · cases h
  · rename_i hle
    cases h
    exact ⟨RangeFilter.afterCalls_not_gt calls _ hle, fun h1 h2 hc =>
      RangeFilter.afterCalls_le calls _ (float.le_of_not_lt h2 h1 hle) hc⟩

theorem range_invariant_witness :
    RangeFilter.ctor 2 4 = .ok ⟨2, 4⟩ ∧
      ¬ ((RangeFilter.mk 2 4).afterCalls
          [.setRange 4 2, .getRange, .update [0, 5], .setRange 1 3]).range_min
        > ((RangeFilter.mk 2 4).afterCalls
          [.setRange 4 2, .getRange, .update [0, 5], .setRange 1 3]).range_max ∧
      ((2 : float) ≠ float.nan → (4 : float) ≠ float.nan →
        (∀ c ∈ [RangeFilter.Call.setRange 4 2, .getRange, .update [0, 5], .setRange 1 3],
          float.nan ∉ c.bounds) →
        ((RangeFilter.mk 2 4).afterCalls
            [.setRange 4 2, .getRange, .update [0, 5], .setRange 1 3]).range_min
          ≤ ((RangeFilter.mk 2 4).afterCalls
            [.setRange 4 2, .getRange, .update [0, 5], .setRange 1 3]).range_max) :=
  have h : RangeFilter.ctor 2 4 = .ok ⟨2, 4⟩ := rfl
  ⟨h, range_invariant 2 4 ⟨2, 4⟩ h _⟩

/-- C12 fails for scans that hold a NaN: two fresh `TempMedianFilter(2, 2)` fed
`[1, 1], [2, NaN]` and `[1, 1], [2, 5]`, streams that agree at position 0, do
not agree at position 0 of what the second call returns: the first run ends in
undefined behaviour (`prev(mid, 1)` with the iterator of column 1 at
`begin()`), the second returns a scan. -/
theorem columns_not_independent_with_nan : ∃ s0, ctor 2 2 = .ok s0 ∧
    List.Forall₂ (fun g1 g2 : Scan => g1[0]? = g2[0]?)
      [[1, 1], [2, float.nan]] [[1, 1], [2, 5]] ∧
    (feed s0 [[1, 1], [2, float.nan]]).1[1]? = some (.error .undefined_behaviour) ∧
    ∃ out, (feed s0 [[1, 1], [2, 5]]).1[1]? = some (.ok out) :=
  ⟨_, rfl, .cons rfl (.cons rfl .nil), rfl, _, rfl⟩

/-- C12 (column independence, scans without NaN): two fresh `TempMedianFilter(N, D)` fed
streams of scans of length `N` without NaN that have the same number of scans
and agree at position `i` in every scan return, at every call, scans that agree
at position `i`; that sample is what a `TempMedianFilter(1, D)` fed the
column-`i` samples alone returns at that call. -/
theorem column_independence (N D : Int) (hN : 0 < N) (hD : 0 < D) (i : Nat) (hi : (i : Int) < N)
    (frames1 frames2 : List Scan) (h1 : ∀ g ∈ frames1, (g.length : Int) = N)
    (h2 : ∀ g ∈ frames2, (g.length : Int) = N)
    (hnan1 : ∀ g ∈ frames1, float.nan ∉ g) (hnan2 : ∀ g ∈ frames2, float.nan ∉ g)
    (hagree : List.Forall₂ (fun g1 g2 : Scan => g1[i]? = g2[i]?) frames1 frames2) :
    ∃ s0 c0, ctor N D = .ok s0 ∧ ctor 1 D = .ok c0 ∧
      ∀ n, n < frames1.length → ∃ out1 out2 m,
        (feed s0 frames1).1[n]? = some (.ok out1) ∧
        (feed s0 frames2).1[n]? = some (.ok out2) ∧
        out1[i]? = some m ∧ out2[i]? = some m ∧
        (feed c0 ((column i frames1).map (fun x => [x]))).1[n]? = some (.ok [m]) := by
  obtain ⟨s0, h0, inv⟩ := ctor_inv N D hN hD
  obtain ⟨c0, hc0, invc⟩ := ctor_inv 1 D (by norm_num) hD
  refine ⟨s0, c0, h0, hc0, fun n hn => ?_⟩
  have h1' : ∀ g ∈ frames1, g.length = N.toNat := fun g hg => by have := h1 g hg; omega
  have h2' : ∀ g ∈ frames2, g.length = N.toNat := fun g hg => by have := h2 g hg; omega
  have hc' : ∀ g ∈ (column i frames1).map (fun x => [x]), g.length = (1 : Int).toNat := by
    intro g hg
    obtain ⟨x, -, rfl⟩ := List.mem_map.mp hg
    rfl
  have hcn : ∀ g ∈ (column i frames1).map (fun x => [x]), float.nan ∉ g := by
    intro g hg
    obtain ⟨x, hx, rfl⟩ := List.mem_map.mp hg
    intro hmem
    rw [List.mem_singleton] at hmem
    exact not_mem_column i frames1 hnan1 (hmem ▸ hx)
  have hiN : i < N.toNat := by omega
  obtain ⟨e2, ec⟩ :=
    column_window_congr i N.toNat D.toNat (n + 1) hiN frames1 frames2 h1' h2' hagree
  obtain ⟨out1, a1, b1, c1⟩ := feed_outputs N.toNat D.toNat frames1 [] s0 inv h1' hnan1 n hn
  obtain ⟨out2, a2, b2, c2⟩ := feed_outputs N.toNat D.toNat frames2 [] s0 inv h2' hnan2 n
    (by rw [← hagree.length_eq]; exact hn)
  obtain ⟨outc, ac, bc, cc⟩ := feed_outputs (1 : Int).toNat D.toNat _ [] c0 invc hc' hcn n
    (by rw [List.length_map, length_column i N.toNat frames1 hiN h1']; exact hn)
  obtain ⟨l1, s1, p1, d1⟩ := c1 i hiN
  obtain ⟨l2, s2, p2, d2⟩ := c2 i hiN
  obtain ⟨lc, sc, pc, dc⟩ := cc 0 (by norm_num)
  rw [List.nil_append] at p1 p2 pc
  rw [e2] at p2
  rw [ec] at pc
  have hl2 : l2 = l1 := eq_of_perm_of_sorted_float _ _ (p2.trans p1.symm) s2 s1
  have hlc : lc = l1 := eq_of_perm_of_sorted_float _ _ (pc.trans p1.symm) sc s1
  rw [hl2] at d2
  rw [hlc] at dc
  have hm : out1[i]? = some out1[i] := List.getElem?_eq_getElem (by omega)
  refine ⟨out1, out2, out1[i], a1, a2, hm, d2.trans (d1.symm.trans hm), ?_⟩
  rw [ac, eq_singleton_of_getElem? outc out1[i] bc (dc.trans (d1.symm.trans hm))]

theorem column_independence_witness :
    (0 : Int) < 2 ∧ (0 : Int) < 3 ∧ ((0 : Nat) : Int) < 2 ∧
      (∀ g ∈ [[(1 : float), 7], [3, 8]], (g.length : Int) = 2) ∧
      (∀ g ∈ [[(1 : float), 0], [3, 9]], (g.length : Int) = 2) ∧
      (∀ g ∈ [[(1 : float), 7], [3, 8]], float.nan ∉ g) ∧
      (∀ g ∈ [[(1 : float), 0], [3, 9]], float.nan ∉ g) ∧
      List.Forall₂ (fun g1 g2 : Scan => g1[0]? = g2[0]?) [[1, 7], [3, 8]] [[1, 0], [3, 9]] ∧
      ∃ s0 c0, ctor 2 3 = .ok s0 ∧ ctor 1 3 = .ok c0 ∧
        ∀ n, n < [[(1 : float), 7], [3, 8]].length → ∃ out1 out2 m,
          (feed s0 [[1, 7], [3, 8]]).1[n]? = some (.ok out1) ∧
          (feed s0 [[1, 0], [3, 9]]).1[n]? = some (.ok out2) ∧
          out1[0]? = some m ∧ out2[0]? = some m ∧
          (feed c0 ((column 0 [[1, 7], [3, 8]]).map (fun x => [x]))).1[n]? = some (.ok [m]) :=
  have hag : List.Forall₂ (fun g1 g2 : Scan => g1[0]? = g2[0]?)
      [[1, 7], [3, 8]] [[1, 0], [3, 9]] :=
    .cons rfl (.cons rfl .nil)
  ⟨by decide, by decide, by decide, by decide, by decide, by decide, by decide, hag,
    column_independence 2 3 (by decide) (by decide) 0 (by decide) _ _ (by decide) (by decide)
      (by decide) (by decide) hag⟩

/-- C14 fails for scans that hold a NaN: after the six successful updates of a
`TempMedianFilter(1, 3)` fed `1, 2, NaN, 0, 3, 1` the column window, of size 3,
is `NaN, 1, 3` in the order of iteration, which is not ascending, and the median
iterator is at rank 0, not at rank `3 / 2 = 1`. -/
theorem median_reference_off_with_nan : ∃ s0, ctor 1 3 = .ok s0 ∧
    successes (feed s0 [[1], [2], [float.nan], [0], [3], [1]]).1 = 6 ∧
    (feed s0 [[1], [2], [float.nan], [0], [3], [1]]).2.m_multiSetVal = [[float.nan, 1, 3]] ∧
    (feed s0 [[1], [2], [float.nan], [0], [3], [1]]).2.m_multiSetMedianIter = [some 0] ∧
    (0 : Nat) ≠ [float.nan, (1 : float), 3].length / 2 ∧
    ¬ [float.nan, (1 : float), 3].Sorted (· ≤ ·) :=
  ⟨_, rfl, rfl, rfl, rfl, by decide, by decide⟩

/-- C14 (median-reference invariant, scans without NaN): after every successful update of
a `TempMedianFilter(N, D)` reached from a fresh filter by scans without NaN,
every column window, of size `s = min(n, D) ≥ 1`, is kept in sorted order and
its stored median reference designates the element at 0-based position
`floor(s / 2)`. -/
theorem median_reference (N D : Int) (hN : 0 < N) (hD : 0 < D) (frames : List Scan)
    (hframes : ∀ g ∈ frames, (g.length : Int) = N) (hnan : ∀ g ∈ frames, float.nan ∉ g)
    (hn : 1 ≤ frames.length) :
    ∃ s0, ctor N D = .ok s0 ∧
      ∀ i : Nat, (i : Int) < N → ∃ l, (feed s0 frames).2.m_multiSetVal[i]? = some l ∧
        l.Sorted (· ≤ ·) ∧ l.Perm (lastN (min frames.length D.toNat) (column i frames)) ∧
        l.length = min frames.length D.toNat ∧ 1 ≤ l.length ∧
        (feed s0 frames).2.m_multiSetMedianIter[i]? = some (some (l.length / 2)) := by
  obtain ⟨s0, h0, inv0⟩ := ctor_inv N D hN hD
  have inv := feed_inv_all N D hN frames hframes hnan s0 inv0
  refine ⟨s0, h0, fun i hi => ?_⟩
  have hiN : i < N.toNat := by omega
  obtain ⟨l, hl, hs, hp, hmid⟩ := inv.cols i hiN
  have hposD := inv.ring.posD
  have hlen : l.length = min frames.length D.toNat := by
    rw [hp.length_eq, length_column i N.toNat _ hiN
      (fun g hg => inv.hhist g (mem_lastN _ _ g hg)), length_lastN]
  have hpos : 1 ≤ l.length := by omega
  rw [column_lastN i N.toNat D.toNat frames hiN inv.hhist] at hp
  exact ⟨l, hl, hs, hp, hlen, hpos, hmid (List.ne_nil_of_length_pos hpos)⟩

theorem median_reference_witness :
    (0 : Int) < 1 ∧ (0 : Int) < 3 ∧
      (∀ g ∈ [[(1 : float)], [3], [2], [5]], (g.length : Int) = 1) ∧
      (∀ g ∈ [[(1 : float)], [3], [2], [5]], float.nan ∉ g) ∧
      1 ≤ [[(1 : float)], [3], [2], [5]].length ∧
      ∃ s0, ctor 1 3 = .ok s0 ∧
        ∀ i : Nat, (i : Int) < 1 →
          ∃ l, (feed s0 [[1], [3], [2], [5]]).2.m_multiSetVal[i]? = some l ∧
            l.Sorted (· ≤ ·) ∧
            l.Perm (lastN (min [[(1 : float)], [3], [2], [5]].length (3 : Int).toNat)
              (column i [[1], [3], [2], [5]])) ∧
            l.length = min [[(1 : float)], [3], [2], [5]].length (3 : Int).toNat ∧
            1 ≤ l.length ∧
            (feed s0 [[1], [3], [2], [5]]).2.m_multiSetMedianIter[i]?
              = some (some (l.length / 2)) :=
  ⟨by decide, by decide, by decide, by decide, by decide,
    median_reference 1 3 (by decide) (by decide) [[1], [3], [2], [5]] (by decide) (by decide)
      (by decide)⟩

/-- C15 fails for scans that hold a NaN: in a `TempMedianFilter(1, 3)` after
the five successful updates with `1, 2, NaN, 0, 3` the slot of the oldest index
holds the oldest retained scan `[NaN]` and the column window holds `0, NaN, 3`;
the next update, with `[1]`, leaves the window `NaN, 1, 3`: it removes the
sample `0`, not the sample NaN of the oldest scan. -/
theorem eviction_misses_nan : ∃ s0, ctor 1 3 = .ok s0 ∧
    successes (feed s0 [[1], [2], [float.nan], [0], [3]]).1 = 5 ∧
    vectorAt (feed s0 [[1], [2], [float.nan], [0], [3]]).2.m_preScans
      (feed s0 [[1], [2], [float.nan], [0], [3]]).2.m_oldestIndex = some [float.nan] ∧
    (feed s0 [[1], [2], [float.nan], [0], [3]]).2.m_multiSetVal = [[0, float.nan, 3]] ∧
    (∃ out, (update (feed s0 [[1], [2], [float.nan], [0], [3]]).2 [1]).1 = .ok out) ∧
    (update (feed s0 [[1], [2], [float.nan], [0], [3]]).2 [1]).2.m_multiSetVal
      = [[float.nan, 1, 3]] ∧
    ¬ (float.nan :: [float.nan, (1 : float), 3]).Perm (1 :: [0, float.nan, 3]) :=
  ⟨_, rfl, rfl, rfl, rfl, ⟨_, rfl⟩, rfl, by decide⟩

/-- C15 (ring semantics of the history buffer, eviction for scans without NaN): after `n` successful
updates of a fresh `TempMedianFilter(N, D)`, while `n ≤ D` the oldest-slot index
is 0 and the slots hold the scans in the order fed; for `n ≥ D` the oldest-slot
index is `(n - D) mod D`, lies in `[0, D)`, and its slot holds the
`(n - D + 1)`-th scan fed, which the next successful update overwrites; when no
scan holds a NaN, the samples of that scan are those the next update removes
from the column windows. -/
theorem ring_semantics (N D : Int) (hN : 0 < N) (hD : 0 < D) (frames : List Scan) :
    ∃ s0, ctor N D = .ok s0 ∧
      ((∀ r ∈ (feed s0 frames).1, ∃ out, r = .ok out) →
        (frames.length ≤ D.toNat →
          (feed s0 frames).2.m_oldestIndex = 0 ∧ (feed s0 frames).2.m_preScans = frames) ∧
        (D.toNat ≤ frames.length →
          (feed s0 frames).2.m_oldestIndex
            = (((frames.length - D.toNat) % D.toNat : Nat) : Int) ∧
          0 ≤ (feed s0 frames).2.m_oldestIndex ∧ (feed s0 frames).2.m_oldestIndex < D ∧
          ∃ oldest, frames[frames.length - D.toNat]? = some oldest ∧
            vectorAt (feed s0 frames).2.m_preScans (feed s0 frames).2.m_oldestIndex
              = some oldest ∧
            (∀ f out : Scan, (update (feed s0 frames).2 f).1 = .ok out →
              (update (feed s0 frames).2 f).2.m_preScans
                = (feed s0 frames).2.m_preScans.set
                    (feed s0 frames).2.m_oldestIndex.toNat f) ∧
            ((∀ g ∈ frames, (g.length : Int) = N ∧ float.nan ∉ g) →
              ∀ f : Scan, (f.length : Int) = N → float.nan ∉ f →
                (∃ out, (update (feed s0 frames).2 f).1 = .ok out) ∧
                ∀ i : Nat, (i : Int) < N → ∃ old v l l', oldest[i]? = some old ∧
                  f[i]? = some v ∧
                  (feed s0 frames).2.m_multiSetVal[i]? = some l ∧
                  (update (feed s0 frames).2 f).2.m_multiSetVal[i]? = some l' ∧
                  (old :: l').Perm (v :: l)))) := by
  obtain ⟨s0, h0, inv0⟩ := ctor_inv N D hN hD
  refine ⟨s0, h0, fun hok => ?_⟩
  have ring := feed_ring N.toNat D.toNat frames [] s0 inv0.ring hok
  rw [List.nil_append] at ring
  refine ⟨fun hle => ?_, fun hge => ?_⟩
  · have ho0 : (feed s0 frames).2.m_oldestIndex = 0 := by
      rw [ring.idx, show frames.length - D.toNat = 0 by omega]; simp
    have hwin := ring.win
    simp only [window, ho0, Int.toNat_zero, List.drop_zero, List.take_zero,
      List.append_nil, lastN, show frames.length - D.toNat = 0 by omega] at hwin
    exact ⟨ho0, hwin⟩
  · obtain ⟨oldest, w0, hy, hget, hvec⟩ := oldest_slot _ _ frames _ ring hge
    have hmod : (frames.length - D.toNat) % D.toNat < D.toNat := Nat.mod_lt _ ring.posD
    refine ⟨ring.idx, by rw [ring.idx]; exact Int.natCast_nonneg _, by rw [ring.idx]; omega,
      oldest, hget, hvec, fun f out hout => ?_, fun hframes f hf hfn => ?_⟩
    · have hupd : update (feed s0 frames).2 f = (.ok out, (update (feed s0 frames).2 f).2) := by
        rw [← hout]
      obtain ⟨-, hpre⟩ := update_ok_ring _ _ frames _ _ ring f out hupd
      rw [hpre, if_neg (by omega)]
    · have inv := feed_inv_all N D hN frames (fun g hg => (hframes g hg).1)
        (fun g hg => (hframes g hg).2) s0 inv0
      have hf' : f.length = N.toNat := by omega
      obtain ⟨s', hupd, inv', -⟩ := update_spec _ _ frames _ inv f hf' hfn
      refine ⟨⟨_, by rw [hupd]⟩, fun i hi => ?_⟩
      have hiN : i < N.toNat := by omega
      obtain ⟨y', w0', hcons, hw0'⟩ := lastN_append_full D.toNat frames f ring.posD (by omega)
      rw [hy] at hcons
      have e := List.cons.inj hcons
      rw [← e.2] at hw0'
      obtain ⟨l, hl, -, hp, -⟩ := inv.cols i hiN
      obtain ⟨l', hl', -, hp', -⟩ := inv'.cols i hiN
      have hold : i < oldest.length := by
        rw [inv.hhist oldest (mem_lastN _ _ _ (by rw [hy]; exact List.mem_cons_self _ _))]
        exact hiN
      have hv : i < f.length := by omega
      rw [hy, column_cons i _ oldest _ (List.getElem?_eq_getElem hold)] at hp
      rw [hw0', column_append i _ f _ (List.getElem?_eq_getElem hv)] at hp'
      refine ⟨oldest[i], f[i], l, l', List.getElem?_eq_getElem hold,
        List.getElem?_eq_getElem hv, hl, by rw [hupd]; exact hl', ?_⟩
      exact ((List.Perm.cons _ hp').trans
        ((List.Perm.cons _ (List.perm_append_singleton _ _)).trans (List.Perm.swap _ _ _))).trans
        (List.Perm.cons _ hp.symm)

theorem ring_semantics_witness :
    (0 : Int) < 1 ∧ (0 : Int) < 3 ∧
      ∃ s0, ctor 1 3 = .ok s0 ∧
        ((∀ r ∈ (feed s0 [[1], [3], [2], [5]]).1, ∃ out, r = .ok out) →
          ([[(1 : float)], [3], [2], [5]].length ≤ (3 : Int).toNat →
            (feed s0 [[1], [3], [2], [5]]).2.m_oldestIndex = 0 ∧
            (feed s0 [[1], [3], [2], [5]]).2.m_preScans = [[1], [3], [2], [5]]) ∧
          ((3 : Int).toNat ≤ [[(1 : float)], [3], [2], [5]].length →
            (feed s0 [[1], [3], [2], [5]]).2.m_oldestIndex
              = ((([[(1 : float)], [3], [2], [5]].length - (3 : Int).toNat)
                  % (3 : Int).toNat : Nat) : Int) ∧
            0 ≤ (feed s0 [[1], [3], [2], [5]]).2.m_oldestIndex ∧
            (feed s0 [[1], [3], [2], [5]]).2.m_oldestIndex < 3 ∧
            ∃ oldest, [[(1 : float)], [3], [2], [5]][[[(1 : float)], [3], [2], [5]].length
                - (3 : Int).toNat]? = some oldest ∧
              vectorAt (feed s0 [[1], [3], [2], [5]]).2.m_preScans
                (feed s0 [[1], [3], [2], [5]]).2.m_oldestIndex = some oldest ∧
              (∀ f out : Scan, (update (feed s0 [[1], [3], [2], [5]]).2 f).1 = .ok out →
                (update (feed s0 [[1], [3], [2], [5]]).2 f).2.m_preScans
                  = (feed s0 [[1], [3], [2], [5]]).2.m_preScans.set
                      (feed s0 [[1], [3], [2], [5]]).2.m_oldestIndex.toNat f) ∧
              ((∀ g ∈ [[(1 : float)], [3], [2], [5]], (g.length : Int) = 1 ∧ float.nan ∉ g) →
                ∀ f : Scan, (f.length : Int) = 1 → float.nan ∉ f →
                  (∃ out, (update (feed s0 [[1], [3], [2], [5]]).2 f).1 = .ok out) ∧
                  ∀ i : Nat, (i : Int) < 1 → ∃ old v l l', oldest[i]? = some old ∧
                    f[i]? = some v ∧
                    (feed s0 [[1], [3], [2], [5]]).2.m_multiSetVal[i]? = some l ∧
                    (update (feed s0 [[1], [3], [2], [5]]).2 f).2.m_multiSetVal[i]? = some l' ∧
                    (old :: l').Perm (v :: l)))) :=
  ⟨by decide, by decide, ring_semantics 1 3 (by decide) (by decide) [[1], [3], [2], [5]]⟩

/-- C16 fails for scans that hold a NaN: in the state of a
`TempMedianFilter(1, 1)` after its successful update with `[NaN]`, the step of
`updateOne` for the next scan `[5]` removes the node of rank 0, which is the
node the median iterator designates at that moment, and the iterator is
dereferenced afterwards: `updateOne` is undefined.  In the state of a
`TempMedianFilter(1, 2)` after `[1]`, the step for the scan `[NaN]` steps back
from `begin()`. -/
theorem removal_hits_median_with_nan : ∃ s0 c0, ctor 1 1 = .ok s0 ∧ ctor 1 2 = .ok c0 ∧
    (feed s0 [[float.nan]]).1 = [.ok [float.nan]] ∧
    removalRanks (feed s0 [[float.nan]]).2 0 5 = some (0, 0) ∧
    updateOne (feed s0 [[float.nan]]).2 0 5 = none ∧
    (feed c0 [[1]]).1 = [.ok [1]] ∧
    updateOne (feed c0 [[1]]).2 0 float.nan = none :=
  ⟨_, _, rfl, rfl, rfl, rfl, rfl, rfl, rfl⟩

/-- C16 (the per-column step never goes out of range, scans without NaN): in a state
reached from a fresh `TempMedianFilter(N, D)` by successful updates with scans
without NaN and for a next scan of length `N` without NaN, `update` and the loop
of `updateScan` run without undefined behaviour, so no lookup, dereference or
iterator move fails; when the loop reaches column `i`, `updateOne` on that
column is defined, and at capacity the slot `m_preScans[m_oldestIndex]` exists,
has an entry at `i` whose value is in the column window, `lower_bound` finds a
node equal to it, the median iterator designates an element at the moment of the
removal, and the node removed is not that element. -/
theorem step_in_range (N D : Int) (hN : 0 < N) (hD : 0 < D) (frames : List Scan)
    (hframes : ∀ g ∈ frames, (g.length : Int) = N) (hnan : ∀ g ∈ frames, float.nan ∉ g)
    (f : Scan) (hf : (f.length : Int) = N) (hfn : float.nan ∉ f) :
    ∃ s0, ctor N D = .ok s0 ∧
      (∃ out, (update (feed s0 frames).2 f).1 = .ok out) ∧
      (∃ s1, updateScan (feed s0 frames).2 f = some s1) ∧
      ∀ i : Nat, (i : Int) < N → ∃ si v l,
        updateScanFrom (feed s0 frames).2 0 (f.take i) = some si ∧
        updateScan (feed s0 frames).2 f = updateScanFrom si i (f.drop i) ∧
        f[i]? = some v ∧ si.m_multiSetVal[i]? = some l ∧
        (∃ r, updateOne si i v = some r) ∧
        (D.toNat ≤ frames.length → ∃ oldScan old q mid x,
          vectorAt si.m_preScans si.m_oldestIndex = some oldScan ∧
          oldScan[i]? = some old ∧ old ∈ l ∧
          removalRanks si i v = some (q, mid) ∧
          q = multiset.lower_bound (multiset.insert l v) old ∧
          multiset.deref (multiset.insert l v) q = some old ∧
          multiset.deref (multiset.insert l v) mid = some x ∧ q ≠ mid) := by
  obtain ⟨s0, h0, inv0⟩ := ctor_inv N D hN hD
  have inv := feed_inv_all N D hN frames hframes hnan s0 inv0
  have hf' : f.length = N.toNat := by omega
  have ctx := inv_scanCtx inv f hf' hfn
  obtain ⟨s', hupd, -, -⟩ := update_spec _ _ frames _ inv f hf' hfn
  obtain ⟨s1, hrun, -⟩ :=
    updateScanFrom_spec N.toNat D.toNat _ _ f f 0 _ ctx rfl (fun j _ hj => inv.cols j hj)
  refine ⟨s0, h0, ⟨_, by rw [hupd]⟩, ⟨s1, hrun⟩, fun i hi => ?_⟩
  have hiN : i < N.toNat := by omega
  have hlen : (f.take i).length = i := by rw [List.length_take]; omega
  obtain ⟨si, hrun_i, ctx_i, hcols_i⟩ :=
    updateScanFrom_prefix N.toNat D.toNat _ _ f (f.take i) 0 _ (f.drop i) ctx
      (by simp) (fun j _ hj => inv.cols j hj)
  have hcol : ColumnInv si (lastN D.toNat frames) i := hcols_i i (by omega) hiN
  have hv : f[i]? = some f[i] := List.getElem?_eq_getElem (by omega)
  have hvn : f[i] ≠ float.nan := fun h => hfn (h ▸ List.getElem_mem _)
  obtain ⟨med, l', hone, -, -, -⟩ := updateOne_column _ _ _ _ f si ctx_i i hiN _ hv hcol
  obtain ⟨l, hl, -, -, -⟩ := hcol
  refine ⟨si, f[i], l, hrun_i, ?_, hv, hl, ⟨_, hone⟩, fun hfull => ?_⟩
  · have := updateScanFrom_append (f.take i) (f.drop i) 0 (feed s0 frames).2
    rw [List.take_append_drop, hrun_i, hlen, Nat.zero_add] at this
    exact this
  · obtain ⟨oldScan, old, l2, q, mid, x, e1, e2, e3, e4, e5, e6, e7, e8, e9⟩ :=
      removalRanks_column _ _ _ _ f si ctx_i i hiN f[i] hvn (hcols_i i (by omega) hiN)
        (by rw [length_lastN]; omega)
    obtain rfl : l2 = l := Option.some.inj (e3.symm.trans hl)
    exact ⟨oldScan, old, q, mid, x, e1, e2, e4, e5, e6, e7, e8, e9⟩

theorem step_in_range_witness :
    (0 : Int) < 1 ∧ (0 : Int) < 3 ∧
      (∀ g ∈ [[(1 : float)], [3], [2], [5]], (g.length : Int) = 1) ∧
      (∀ g ∈ [[(1 : float)], [3], [2], [5]], float.nan ∉ g) ∧
      (([(4 : float)].length : Nat) : Int) = 1 ∧ float.nan ∉ [(4 : float)] ∧
      ∃ s0, ctor 1 3 = .ok s0 ∧
        (∃ out, (update (feed s0 [[1], [3], [2], [5]]).2 [4]).1 = .ok out) ∧
        (∃ s1, updateScan (feed s0 [[1], [3], [2], [5]]).2 [4] = some s1) ∧
        ∀ i : Nat, (i : Int) < 1 → ∃ si v l,
          updateScanFrom (feed s0 [[1], [3], [2], [5]]).2 0 ([(4 : float)].take i) = some si ∧
          updateScan (feed s0 [[1], [3], [2], [5]]).2 [4]
            = updateScanFrom si i ([(4 : float)].drop i) ∧
          [(4 : float)][i]? = some v ∧ si.m_multiSetVal[i]? = some l ∧
          (∃ r, updateOne si i v = some r) ∧
          ((3 : Int).toNat ≤ [[(1 : float)], [3], [2], [5]].length → ∃ oldScan old q mid x,
            vectorAt si.m_preScans si.m_oldestIndex = some oldScan ∧
            oldScan[i]? = some old ∧ old ∈ l ∧
            removalRanks si i v = some (q, mid) ∧
            q = multiset.lower_bound (multiset.insert l v) old ∧
            multiset.deref (multiset.insert l v) q = some old ∧
            multiset.deref (multiset.insert l v) mid = some x ∧ q ≠ mid) :=
  ⟨by decide, by decide, by decide, by decide, by decide, by decide,
    step_in_range 1 3 (by decide) (by decide) [[1], [3], [2], [5]] (by decide) (by decide)
      [4] (by decide) (by decide)⟩

/-- C17 fails for scans that hold a NaN: a fresh `TempMedianFilter(1, 1)` fed
`[NaN]` and then `[5]` does not return `[5]` from the second call, which ends in
undefined behaviour. -/
theorem window_one_not_identity_with_nan : ∃ s0, ctor 1 1 = .ok s0 ∧
    (feed s0 [[float.nan], [5]]).1 = [.ok [float.nan], .error .undefined_behaviour] ∧
    (feed s0 [[float.nan], [5]]).1 ≠ ([[float.nan], [5]] : List Scan).map Except.ok :=
  ⟨_, rfl, rfl, fun h => by cases h⟩

/-- C17 (a window of one is the identity, scans without NaN): a fresh
`TempMedianFilter(N, 1)` fed scans of length `N` without NaN returns at every
call the scan it was given. -/
theorem window_one_identity (N : Int) (hN : 0 < N) (frames : List Scan)
    (hframes : ∀ g ∈ frames, (g.length : Int) = N) (hnan : ∀ g ∈ frames, float.nan ∉ g) :
    ∃ s0, ctor N 1 = .ok s0 ∧ (feed s0 frames).1 = frames.map Except.ok := by
  obtain ⟨s0, h0, inv⟩ := ctor_inv N 1 hN (by norm_num)
  refine ⟨s0, h0, ?_⟩
  have hframes' : ∀ g ∈ frames, g.length = N.toNat := fun g hg => by
    have := hframes g hg
    omega
  have hD1 : (1 : Int).toNat = 1 := rfl
  apply List.ext_getElem?
  intro n
  rcases Nat.lt_or_ge n frames.length with hn | hn
  · obtain ⟨out, e1, e2, e3⟩ :=
      feed_outputs N.toNat (1 : Int).toNat frames [] s0 inv hframes' hnan n hn
    have hg : frames[n].length = N.toNat := hframes' _ (List.getElem_mem hn)
    have hgn : float.nan ∉ frames[n] := hnan _ (List.getElem_mem hn)
    have hout : out = frames[n] := by
      apply List.ext_getElem?
      intro i
      rcases Nat.lt_or_ge i N.toNat with hi | hi
      · have hgi : frames[n][i]? = some frames[n][i] := List.getElem?_eq_getElem (by omega)
        obtain ⟨l, -, hp, hl⟩ := e3 i hi
        rw [List.nil_append, hD1, lastN_one_take frames n hn,
          column_cons i [] frames[n] _ hgi] at hp
        have hl1 : l = [frames[n][i]] := List.perm_singleton.mp hp
        rw [hl, hl1, hgi]
        exact middle_singleton _ (fun h => hgn (h ▸ List.getElem_mem _))
      · rw [List.getElem?_eq_none (by omega), List.getElem?_eq_none (by omega)]
    rw [e1, hout, List.getElem?_map, List.getElem?_eq_getElem hn]
    rfl
  · rw [List.getElem?_eq_none (by rw [feed_length]; exact hn),
      List.getElem?_eq_none (by rw [List.length_map]; exact hn)]

theorem window_one_identity_witness :
    (0 : Int) < 2 ∧ (∀ g ∈ [[(1 : float), 7], [3, 8], [0, 8]], (g.length : Int) = 2) ∧
      (∀ g ∈ [[(1 : float), 7], [3, 8], [0, 8]], float.nan ∉ g) ∧
      ∃ s0, ctor 2 1 = .ok s0 ∧
        (feed s0 [[1, 7], [3, 8], [0, 8]]).1
          = [[(1 : float), 7], [3, 8], [0, 8]].map Except.ok :=
  ⟨by decide, by decide, by decide,
    window_one_identity 2 (by decide) [[1, 7], [3, 8], [0, 8]] (by decide) (by decide)⟩

end LFCLASS
